import Mathlib

/-!
# Verification of the Enrichment record-linkage engine

Shallow embedding of the matching/scoring core of the Enrichment repository
(`matcher.py`, `pipeline.py`, `scorer.py`) together with proofs of the
behavioural properties stated in its specification.

Python strings are modelled as `List Char` (ASCII fragment); machine
integers do not overflow in this program, so scores are `Int` and
distances/lengths are `Nat`.
-/

namespace Enrichment

/-! ## Character primitives

`pyLower`/`pyUpper` embed the Python `str.lower()`/`str.upper()` on the ASCII
range (the core `Char.toLower`/`Char.toUpper` mapping).  `isPySpace` is
the Python `\s` class on ASCII; `isPyWord` is the ASCII fragment of `\w`. -/

def pyLower (c : Char) : Char := c.toLower

def pyUpper (c : Char) : Char := c.toUpper

def isPySpace (c : Char) : Bool :=
  c = ' ' || c = '\t' || c = '\n' || c = '\r' || c = '\x0b' || c = '\x0c'

def isPyWord (c : Char) : Bool :=
  c.isAlpha || c.isDigit || c = '_'

/-! ## Python string operations on `List Char`

`pyLStrip`/`pyRStrip`/`pyStrip` embed `str.lstrip()`/`str.rstrip()`/`str.strip()`;
`collapseWs` embeds `re.sub(r"\s+", " ", s)` (each maximal whitespace run is
replaced by a single space); `pyWords` embeds `str.split()` (split on
whitespace runs, dropping empty pieces); `joinSpace` embeds `" ".join`. -/

def pyLStrip (p : Char → Bool) (l : List Char) : List Char := l.dropWhile p

def pyRStrip (p : Char → Bool) (l : List Char) : List Char :=
  (l.reverse.dropWhile p).reverse

def pyStrip (p : Char → Bool) (l : List Char) : List Char :=
  pyRStrip p (pyLStrip p l)

def collapseAux : Bool → List Char → List Char
  | _, [] => []
  | inRun, c :: cs =>
    if isPySpace c then
      if inRun then collapseAux true cs else ' ' :: collapseAux true cs
    else c :: collapseAux false cs

def collapseWs (l : List Char) : List Char := collapseAux false l

def pyWords (p : Char → Bool) : List Char → List (List Char)
  | [] => []
  | c :: cs =>
    if p c then pyWords p cs
    else
      match cs with
      | [] => [[c]]
      | d :: cs2 =>
        if p d then [c] :: pyWords p (d :: cs2)
        else
          match pyWords p (d :: cs2) with
          | [] => [[c]]
          | w :: ws => (c :: w) :: ws

def joinSpace : List (List Char) → List Char
  | [] => []
  | [w] => w
  | w :: v :: ws => w ++ ' ' :: joinSpace (v :: ws)

/-! ## Normalizers (`matcher.py`)

`normalize_v1` embeds the legacy normalizer
`re.sub(r"\s+", " ", str(name).lower().strip())` (empty input short-circuits
to the empty string).  `normalize_v2` embeds the aggressive normalizer:
lowercase, `&` -> " and ", punctuation -> space, whitespace collapse + strip,
then drop stop-word and legal-suffix tokens and rejoin with single spaces. -/

def normalize_v1 (s : List Char) : List Char :=
  if s = [] then [] else collapseWs (pyStrip isPySpace (s.map pyLower))

def LEGAL_SUFFIXES : List (List Char) :=
  ["inc".toList, "incorporated".toList, "llc".toList, "l.l.c".toList, "ltd".toList,
   "limited".toList, "corp".toList, "corporation".toList, "co".toList, "company".toList,
   "holdings".toList, "holding".toList, "group".toList, "intl".toList,
   "international".toList]

def STOPWORDS : List (List Char) := ["the".toList]

def ampExpand (l : List Char) : List Char :=
  l.flatMap fun c => if c = '&' then " and ".toList else [c]

def punctToSpace (l : List Char) : List Char :=
  l.map fun c => if isPyWord c || isPySpace c then c else ' '

def v2Cleaned (s : List Char) : List Char :=
  punctToSpace (ampExpand (s.map pyLower))

def v2Tokens (s : List Char) : List (List Char) :=
  (pyWords isPySpace (pyStrip isPySpace (collapseWs (v2Cleaned s)))).filter
    fun tk => !STOPWORDS.contains tk && !LEGAL_SUFFIXES.contains tk

def normalize_v2 (s : List Char) : List Char :=
  if s = [] then [] else joinSpace (v2Tokens s)

/-! ## Edit distance (`matcher.py`, `compute_distance` pure-Python fallback)

`lev` is the textbook Levenshtein recurrence; `Transform a b n` says that `a`
can be turned into `b` by a sequence of single-character keeps, substitutions,
insertions and deletions of total cost `n`.  `compute_distance` embeds the
row-by-row dynamic program of the source fallback. -/

def levCost (x y : Char) : Nat := if x = y then 0 else 1

def lev : List Char → List Char → Nat
  | [], ys => ys.length
  | x :: xs, [] => (x :: xs).length
  | x :: xs, y :: ys =>
    min (lev (x :: xs) ys + 1) (min (lev xs (y :: ys) + 1) (lev xs ys + levCost x y))
termination_by a b => a.length + b.length
decreasing_by all_goals simp +arith

inductive Transform : List Char → List Char → Nat → Prop
  | nil : Transform [] [] 0
  | keep (c : Char) {xs ys n} : Transform xs ys n → Transform (c :: xs) (c :: ys) n
  | subst (c d : Char) {xs ys n} (h : c ≠ d) :
      Transform xs ys n → Transform (c :: xs) (d :: ys) (n + 1)
  | ins (d : Char) {xs ys n} : Transform xs ys n → Transform xs (d :: ys) (n + 1)
  | del (c : Char) {xs ys n} : Transform xs ys n → Transform (c :: xs) ys (n + 1)

/-! ### The dynamic program of the source fallback -/

def fbGo (ca : Char) : List Char → List Nat → Nat → Nat → List Nat
  | [], _, _, _ => []
  | cb :: bs, prev, diag, left =>
    min (left + 1) (min (prev.headD 0 + 1) (diag + levCost ca cb))
      :: fbGo ca bs prev.tail (prev.headD 0)
          (min (left + 1) (min (prev.headD 0 + 1) (diag + levCost ca cb)))

def fbRow (ca : Char) (i : Nat) (prev : List Nat) (b : List Char) : List Nat :=
  i :: fbGo ca b prev.tail (prev.headD 0) i

def fbRows (b : List Char) : List Char → Nat → List Nat → List Nat
  | [], _, prev => prev
  | ca :: as, i, prev => fbRows b as (i + 1) (fbRow ca i prev b)

def compute_distance (a b : List Char) : Nat :=
  if a = b then 0
  else if a = [] then b.length
  else if b = [] then a.length
  else (fbRows b a 1 (List.range (b.length + 1))).getLastD 0

def rowFull (aP b : List Char) : List Nat :=
  (List.range (b.length + 1)).map (fun j => lev aP (b.take j))

/-! ## Field scorers (`pipeline.py` `compute_matches`, `scorer.py`)

the Python `(x or "").strip().lower()` becomes `pyStripLower`; a missing SQL
value and the empty string are both modelled by `""` (the scoring code
collapses them with `or ""` before use). -/

def pyStripLower (s : String) : List Char :=
  (pyStrip isPySpace s.toList).map pyLower

def email_score (biEmail sfEmail : String) : Int :=
  let b := pyStripLower biEmail
  let s := pyStripLower sfEmail
  if b = [] ∨ s = [] then 0
  else if b = s then -1
  else 0

def city_score (biCity sfBillingCity sfShippingCity : String) : Int :=
  let b := pyStripLower biCity
  let cs := [pyStripLower sfBillingCity, pyStripLower sfShippingCity].filter
    (fun c => !c.isEmpty)
  if b = [] ∧ cs = [] then 0
  else if b ≠ [] ∧ b ∈ cs then -1
  else 1

def US_STATE_MAP : List (List Char × List Char) := [
  ("alabama".toList, "AL".toList), ("alaska".toList, "AK".toList),
  ("arizona".toList, "AZ".toList), ("arkansas".toList, "AR".toList),
  ("california".toList, "CA".toList), ("colorado".toList, "CO".toList),
  ("connecticut".toList, "CT".toList), ("delaware".toList, "DE".toList),
  ("florida".toList, "FL".toList), ("georgia".toList, "GA".toList),
  ("hawaii".toList, "HI".toList), ("idaho".toList, "ID".toList),
  ("illinois".toList, "IL".toList), ("indiana".toList, "IN".toList),
  ("iowa".toList, "IA".toList), ("kansas".toList, "KS".toList),
  ("kentucky".toList, "KY".toList), ("louisiana".toList, "LA".toList),
  ("maine".toList, "ME".toList), ("maryland".toList, "MD".toList),
  ("massachusetts".toList, "MA".toList), ("michigan".toList, "MI".toList),
  ("minnesota".toList, "MN".toList), ("mississippi".toList, "MS".toList),
  ("missouri".toList, "MO".toList), ("montana".toList, "MT".toList),
  ("nebraska".toList, "NE".toList), ("nevada".toList, "NV".toList),
  ("new hampshire".toList, "NH".toList), ("new jersey".toList, "NJ".toList),
  ("new mexico".toList, "NM".toList), ("new york".toList, "NY".toList),
  ("north carolina".toList, "NC".toList), ("north dakota".toList, "ND".toList),
  ("ohio".toList, "OH".toList), ("oklahoma".toList, "OK".toList),
  ("oregon".toList, "OR".toList), ("pennsylvania".toList, "PA".toList),
  ("rhode island".toList, "RI".toList), ("south carolina".toList, "SC".toList),
  ("south dakota".toList, "SD".toList), ("tennessee".toList, "TN".toList),
  ("texas".toList, "TX".toList), ("utah".toList, "UT".toList),
  ("vermont".toList, "VT".toList), ("virginia".toList, "VA".toList),
  ("washington".toList, "WA".toList), ("west virginia".toList, "WV".toList),
  ("wisconsin".toList, "WI".toList), ("wyoming".toList, "WY".toList)]

def normalize_state (s : List Char) : List Char :=
  if s = [] then []
  else
    let t := pyStrip isPySpace s
    if t = [] then []
    else if t.length = 2 then t.map pyUpper
    else (US_STATE_MAP.lookup (t.map pyLower)).getD []

def state_score (biState sfBillingState sfShippingState : String) : Int :=
  let b := normalize_state (pyStrip isPySpace biState.toList)
  let ss := [normalize_state (pyStrip isPySpace sfBillingState.toList),
             normalize_state (pyStrip isPySpace sfShippingState.toList)].filter
    (fun c => !c.isEmpty)
  if b = [] ∧ ss = [] then 0
  else if b ≠ [] ∧ b ∈ ss then -1
  else 1

def normalize_phone (p : String) : List Char := p.toList.filter Char.isDigit

def phone_score (p1 p2 : String) : Int :=
  let n1 := normalize_phone p1
  let n2 := normalize_phone p2
  if n1 = [] ∨ n2 = [] then 0
  else if n1 = n2 then -1
  else 0

/-- Modelled from the spec: zip scoring is part of the full pipeline variant
that is not present under `src/` (only its callers and the other field
scorers are).  Spec rule: normalize to the first 5 digits (requires ≥ 5 raw
digits, else empty); a match against any reference postal field scores −1,
anything else 0. -/
def normalize_zip (z : String) : List Char :=
  let ds := z.toList.filter Char.isDigit
  if 5 ≤ ds.length then ds.take 5 else []

/-- Modelled from the spec: see `normalize_zip`. -/
def zip_score (srcZip refBillingZip refShippingZip : String) : Int :=
  let b := normalize_zip srcZip
  let zs := [normalize_zip refBillingZip, normalize_zip refShippingZip].filter
    (fun c => !c.isEmpty)
  if b = [] then 0
  else if b ∈ zs then -1
  else 0

/-! ## Name distance and the per-company matching pass (`pipeline.py`) -/

inductive NormVersion
  | v1
  | v2
deriving DecidableEq

def normalize (nv : NormVersion) (s : List Char) : List Char :=
  match nv with
  | .v1 => normalize_v1 s
  | .v2 => normalize_v2 s

def name_dist (nv : NormVersion) (maxDist : Nat) (biNameRaw sfNameRaw : String) : Nat :=
  let biNorm := normalize nv biNameRaw.toList
  let sfNorm := normalize nv sfNameRaw.toList
  let minLen := min biNorm.length sfNorm.length
  if minLen = 0 then maxDist + 1
  else if minLen < 4 then (if biNorm = sfNorm then 0 else max 4 maxDist)
  else compute_distance biNorm sfNorm

structure BIRow where
  CustomerId : String
  CustomerNumber : String
  BIName : String
  BIEmail : String
  BICity : String
  BIState : String
deriving DecidableEq, Inhabited

structure SFRow where
  AccountId : String
  SFName : String
  SFEmail : String
  SFBillingCity : String
  SFShippingCity : String
  SFBillingState : String
  SFShippingState : String
  SpectrumCode : String
deriving DecidableEq, Inhabited

structure PairRow where
  CompanyCode : String
  bi : BIRow
  sf : SFRow
deriving DecidableEq, Inhabited

structure ResultRow where
  CompanyCode : String
  CustomerId : String
  CustomerNumber : String
  AccountId : String
  SpectrumCode : String
  BuildOpsName : String
  SalesforceName : String
  BuildOpsEmail : String
  SalesforceEmail : String
  BuildOpsCity : String
  SalesforceCityBilling : String
  SalesforceCityShipping : String
  BuildOpsState : String
  SalesforceStateBilling : String
  SalesforceStateShipping : String
  Dist : Nat
  EmailScore : Int
  AddressCityScore : Int
  StateScore : Int
  TotalScore : Int
deriving DecidableEq, Inhabited

structure FlaggedRow extends ResultRow where
  BestMatchFlag : Nat
deriving DecidableEq, Inhabited

def score_pair (nv : NormVersion) (maxDist : Nat) (r : PairRow) : Option ResultRow :=
  let dist := name_dist nv maxDist r.bi.BIName r.sf.SFName
  if maxDist < dist then none
  else
    let e := email_score r.bi.BIEmail r.sf.SFEmail
    let c := city_score r.bi.BICity r.sf.SFBillingCity r.sf.SFShippingCity
    let st := state_score r.bi.BIState r.sf.SFBillingState r.sf.SFShippingState
    some {
      CompanyCode := r.CompanyCode
      CustomerId := r.bi.CustomerId
      CustomerNumber := r.bi.CustomerNumber
      AccountId := r.sf.AccountId
      SpectrumCode := r.sf.SpectrumCode
      BuildOpsName := r.bi.BIName
      SalesforceName := r.sf.SFName
      BuildOpsEmail := r.bi.BIEmail
      SalesforceEmail := r.sf.SFEmail
      BuildOpsCity := r.bi.BICity
      SalesforceCityBilling := r.sf.SFBillingCity
      SalesforceCityShipping := r.sf.SFShippingCity
      BuildOpsState := r.bi.BIState
      SalesforceStateBilling := r.sf.SFBillingState
      SalesforceStateShipping := r.sf.SFShippingState
      Dist := dist
      EmailScore := e
      AddressCityScore := c
      StateScore := st
      TotalScore := (dist : Int) + e + c + st }

def scored_rows (nv : NormVersion) (maxDist : Nat) (pairs : List PairRow) :
    List ResultRow :=
  pairs.filterMap (score_pair nv maxDist)

def group_min (rs : List ResultRow) (cid : String) : Int :=
  match (rs.filter (fun r => r.CustomerId == cid)).map (fun r => r.TotalScore) with
  | [] => 0
  | x :: xs => xs.foldl min x

def compute_matches (nv : NormVersion) (maxDist : Nat) (pairs : List PairRow) :
    List FlaggedRow :=
  let rs := scored_rows nv maxDist pairs
  rs.map (fun r =>
    { toResultRow := r
      BestMatchFlag := if r.TotalScore = group_min rs r.CustomerId then 1 else 0 })

/-! ## Blocking (`pipeline.py` `block_pairs`)

The blocking key is the uppercased FIRST character of the raw (un-normalized)
name; a record with an empty name gets a missing key (`none`), and pandas
`merge` matches missing keys with each other (NaN joins NaN), which the
`Option Char` equality reproduces.  The length window also uses raw-name
lengths.  The merge emits one row per key-equal (BI, SF) pair, which the
filtered cross product reproduces. -/

def first_char_key (s : String) : Option Char := s.toList.head?.map pyUpper

def block_pairs (dfSF : List SFRow) (dfBI : List BIRow) : List (BIRow × SFRow) :=
  if dfSF = [] ∨ dfBI = [] then []
  else
    (dfBI.flatMap (fun bi => dfSF.filterMap (fun sf =>
      if first_char_key bi.BIName = first_char_key sf.SFName then some (bi, sf)
      else none))).filter
      (fun pr => decide
        (((pr.1.BIName.length : Int) - (pr.2.SFName.length : Int)).natAbs ≤ 3))

/-! ## Fuzzy scoring (`matcher.py`) and the full pipeline variant

`fuzzy_similarity_score` and `fuzzy_score_to_dist` are embedded from
`src/matcher.py`.  The four rapidfuzz scorers (WRatio, token_set_ratio,
token_sort_ratio, partial_ratio) are an external library, so they appear as
abstract 0-100 integer-valued parameters (`RatioFns`); the embedding models
the branch in which rapidfuzz is importable. -/

structure RatioFns where
  wratio : List Char → List Char → Nat
  setRatio : List Char → List Char → Nat
  sortRatio : List Char → List Char → Nat
  partRatio : List Char → List Char → Nat

def fuzzy_similarity_score (R : RatioFns) (a b : List Char) : Nat :=
  if a = [] ∨ b = [] then 0
  else max (R.wratio a b) (max (R.setRatio a b) (max (R.sortRatio a b) (R.partRatio a b)))

def fuzzy_score_to_dist (score : Nat) (maxDist : Nat) : Nat :=
  if 95 ≤ score then 0
  else if 90 ≤ score then 1
  else if 85 ≤ score then 2
  else if 80 ≤ score then 3
  else maxDist

/-- Modelled from the spec: the NameDistance component of the full pipeline
variant.  `src/pipeline.py` computes only the edit distance; the variant the
spec adopts as canonical (whose caller is absent from `src/`) fuses the edit
distance with the band-mapped fuzzy similarity by taking their minimum.  The
short-name rules are those of `src/pipeline.py`. -/
def name_dist_spec (R : RatioFns) (nv : NormVersion) (maxDist : Nat)
    (srcNameRaw refNameRaw : String) : Nat :=
  let a := normalize nv srcNameRaw.toList
  let b := normalize nv refNameRaw.toList
  let minLen := min a.length b.length
  if minLen = 0 then maxDist + 1
  else if minLen < 4 then (if a = b then 0 else max 4 maxDist)
  else min (compute_distance a b)
    (fuzzy_score_to_dist (fuzzy_similarity_score R a b) maxDist)

/-- Modelled from the spec: spec email rule of the full FieldScorer (missing
on either side -> 0; exact case-insensitive match -> -1; matching domains ->
-1; otherwise 0).  The domain is the part after the first `@`. -/
def email_domain (e : List Char) : List Char :=
  (e.dropWhile (fun c => !(c == '@'))).tail

/-- Modelled from the spec: see `email_domain`. -/
def email_score_spec (srcEmail refEmail : String) : Int :=
  let b := pyStripLower srcEmail
  let s := pyStripLower refEmail
  if b = [] ∨ s = [] then 0
  else if b = s then -1
  else if email_domain b ≠ [] ∧ email_domain b = email_domain s then -1
  else 0

/-- Modelled from the spec: phone normalization of the full FieldScorer
(keep the last 10 digits, provided at least 7 raw digits are present,
otherwise empty). -/
def normalize_phone_spec (p : String) : List Char :=
  let ds := p.toList.filter Char.isDigit
  if 7 ≤ ds.length then ds.drop (ds.length - 10) else []

/-- Modelled from the spec: exact match of non-empty normalized phones
scores -2, anything else 0. -/
def phone_score_spec (p1 p2 : String) : Int :=
  let n1 := normalize_phone_spec p1
  let n2 := normalize_phone_spec p2
  if n1 ≠ [] ∧ n1 = n2 then -2 else 0

inductive ConfidenceBand
  | HIGH
  | MEDIUM
  | LOW
deriving DecidableEq, Inhabited

/-- Modelled from the spec: the confidence classification of the Aggregator
(total ≤ 0 -> HIGH, total ≤ 2 -> MEDIUM, else LOW). -/
def confidence_band (t : Int) : ConfidenceBand :=
  if t ≤ 0 then .HIGH else if t ≤ 2 then .MEDIUM else .LOW

/-- Modelled from the spec: number of corroborating signals among
distance ≤ 1, email < 0, phone < 0, zip < 0, city < 0, state < 0. -/
def signal_count (dist : Nat) (e p z c st : Int) : Nat :=
  ([decide (dist ≤ 1), decide (e < 0), decide (p < 0), decide (z < 0),
    decide (c < 0), decide (st < 0)].filter id).length

/-- Modelled from the spec: a -1 bonus when at least three corroborating
signals hold. -/
def multi_signal_bonus (dist : Nat) (e p z c st : Int) : Int :=
  if 3 ≤ signal_count dist e p z c st then -1 else 0

structure SourceRecord where
  id : String
  customer_number : String
  name : String
  email : String
  phone : String
  city : String
  state : String
  zip : String
deriving DecidableEq, Inhabited

structure ReferenceRecord where
  account_id : String
  name : String
  email : String
  phone : String
  billing_city : String
  billing_state : String
  billing_postal_code : String
  shipping_city : String
  shipping_state : String
  shipping_postal_code : String
  external_code : String
deriving DecidableEq, Inhabited

structure SpecResult where
  source_id : String
  reference_id : String
  name_distance : Nat
  email_score : Int
  phone_score : Int
  zip_score : Int
  city_score : Int
  state_score : Int
  multi_signal_bonus : Int
  total_score : Int
  confidence_band : ConfidenceBand
deriving DecidableEq, Inhabited

structure SpecFlagged extends SpecResult where
  best_match_flag : Nat
deriving DecidableEq, Inhabited

/-- Modelled from the spec: scoring of one candidate pair by the full
pipeline variant (name distance with fuzzy fusion, the five field scores,
multi-signal bonus, total, confidence band); pairs beyond the distance
threshold are dropped. -/
def score_pair_spec (R : RatioFns) (nv : NormVersion) (maxDist : Nat)
    (s : SourceRecord) (r : ReferenceRecord) : Option SpecResult :=
  let dist := name_dist_spec R nv maxDist s.name r.name
  if maxDist < dist then none
  else
    let e := email_score_spec s.email r.email
    let p := phone_score_spec s.phone r.phone
    let z := zip_score s.zip r.billing_postal_code r.shipping_postal_code
    let c := city_score s.city r.billing_city r.shipping_city
    let st := state_score s.state r.billing_state r.shipping_state
    let bonus := multi_signal_bonus dist e p z c st
    let total := (dist : Int) + e + p + z + c + st + bonus
    some {
      source_id := s.id
      reference_id := r.account_id
      name_distance := dist
      email_score := e
      phone_score := p
      zip_score := z
      city_score := c
      state_score := st
      multi_signal_bonus := bonus
      total_score := total
      confidence_band := confidence_band total }

def group_min_spec (rs : List SpecResult) (sid : String) : Int :=
  match (rs.filter (fun r => r.source_id == sid)).map (fun r => r.total_score) with
  | [] => 0
  | x :: xs => xs.foldl min x

/-- Modelled from the spec: the matching pass of the full pipeline variant
(score all candidate pairs, keep the survivors, flag every row achieving the
per-source-id minimum total score). -/
def compute_matches_spec (R : RatioFns) (nv : NormVersion) (maxDist : Nat)
    (pairs : List (SourceRecord × ReferenceRecord)) : List SpecFlagged :=
  let rs := pairs.filterMap (fun pr => score_pair_spec R nv maxDist pr.1 pr.2)
  rs.map (fun r =>
    { toSpecResult := r
      best_match_flag := if r.total_score = group_min_spec rs r.source_id then 1 else 0 })

def flag_row (rs : List ResultRow) (r0 : ResultRow) : FlaggedRow :=
  { toResultRow := r0
    BestMatchFlag := if r0.TotalScore = group_min rs r0.CustomerId then 1 else 0 }

/-! ## Sample inputs used by the witnesses -/

def pairA : PairRow :=
  ⟨"100", ⟨"c1", "n1", "Acme", "a@b.c", "", ""⟩,
    ⟨"a1", "Acme", "a@b.c", "", "", "", "", ""⟩⟩

def pairB : PairRow :=
  ⟨"100", ⟨"c1", "n1", "Acme", "a@b.c", "", ""⟩,
    ⟨"a2", "Acme2", "", "", "", "", "", ""⟩⟩

def pairC7 : PairRow :=
  ⟨"100", ⟨"c1", "n1", "Acme", "", "", ""⟩,
    ⟨"a1", "Acme", "", "Denver", "", "CO", "", ""⟩⟩

def biCex : BIRow := ⟨"c1", "n1", " Acme", "", "", ""⟩

def sfCex : SFRow := ⟨"a1", "Acme", "", "", "", "", "", ""⟩

def biEmptyName : BIRow := ⟨"c2", "n2", "", "", "", ""⟩

def sfEmptyName : SFRow := ⟨"a2", "", "", "", "", "", "", ""⟩

def sampleRatios : RatioFns :=
  ⟨fun _ _ => 97, fun _ _ => 0, fun _ _ => 0, fun _ _ => 0⟩

def samplePairSpec : SourceRecord × ReferenceRecord :=
  (⟨"s1", "n1", "Acme", "a@b.c", "3035551212", "Denver", "CO", "80202"⟩,
   ⟨"r1", "Acme", "a@b.c", "3035551212", "Denver", "CO", "80202", "", "", "", "x"⟩)

theorem char_toNat_ofNat {n : Nat} (h : n.isValidChar) : (Char.ofNat n).toNat = n := by
  simp only [Char.ofNat, dif_pos h, Char.ofNatAux, Char.toNat, UInt32.toNat]
  simp [BitVec.toNat_ofNatLt]

theorem pyLower_pyLower (c : Char) : pyLower (pyLower c) = pyLower c := by
  unfold pyLower Char.toLower
  by_cases h : c.toNat ≥ 65 ∧ c.toNat ≤ 90
  · rw [if_pos h]
    have hv : (c.toNat + 32).isValidChar := by
      left
      omega
    have ht : (Char.ofNat (c.toNat + 32)).toNat = c.toNat + 32 := char_toNat_ofNat hv
    rw [if_neg]
    rw [ht]
    omega
  · rw [if_neg h, if_neg h]

theorem isPySpace_pyLower (c : Char) : isPySpace (pyLower c) = isPySpace c := by
  unfold pyLower Char.toLower
  by_cases h : c.toNat ≥ 65 ∧ c.toNat ≤ 90
  · rw [if_pos h]
    have hv : (c.toNat + 32).isValidChar := by left; omega
    have ht : (Char.ofNat (c.toNat + 32)).toNat = c.toNat + 32 := char_toNat_ofNat hv
    have hc : ∀ d : Char, isPySpace d = true → d.toNat ≤ 32 := by
      intro d hd
      simp only [isPySpace, Bool.or_eq_true, decide_eq_true_eq] at hd
      rcases hd with ((((h1 | h1) | h1) | h1) | h1) | h1 <;> subst h1 <;> decide
    have hlow : isPySpace (Char.ofNat (c.toNat + 32)) = false := by
      by_contra hx
      have hx2 : isPySpace (Char.ofNat (c.toNat + 32)) = true := by
        cases hy : isPySpace (Char.ofNat (c.toNat + 32))
        · exact absurd hy hx
        · rfl
      have := hc _ hx2
      omega
    have hcs : isPySpace c = false := by
      by_contra hx
      have hx2 : isPySpace c = true := by
        cases hy : isPySpace c
        · exact absurd hy hx
        · rfl
      have := hc c hx2
      omega
    rw [hlow, hcs]
  · rw [if_neg h]

theorem length_dropWhile_le (p : α → Bool) (l : List α) :
    (l.dropWhile p).length ≤ l.length := by
  induction l with
  | nil => simp
  | cons c cs ih =>
    rw [List.dropWhile_cons]
    split
    · exact Nat.le_succ_of_le ih
    · simp

/-! ### Equation lemmas

The recursions above are structural (so the kernel can evaluate them); the
following lemmas recover the natural run-based unfolding used in proofs. -/

@[simp] theorem collapseWs_nil : collapseWs [] = [] := rfl

theorem collapseAux_true (cs : List Char) :
    collapseAux true cs = collapseAux false (cs.dropWhile isPySpace) := by
  induction cs with
  | nil => rfl
  | cons c cs ih =>
    by_cases hc : isPySpace c
    · rw [List.dropWhile_cons_of_pos hc, collapseAux, if_pos hc, if_pos rfl, ih]
    · rw [List.dropWhile_cons_of_neg hc, collapseAux, if_neg hc, collapseAux, if_neg hc]

theorem collapseWs_cons (c : Char) (cs : List Char) :
    collapseWs (c :: cs) =
      if isPySpace c then ' ' :: collapseWs (cs.dropWhile isPySpace)
      else c :: collapseWs cs := by
  unfold collapseWs
  rw [collapseAux]
  by_cases hc : isPySpace c
  · rw [if_pos hc, if_pos hc, if_neg (by simp), collapseAux_true]
  · rw [if_neg hc, if_neg hc]

@[simp] theorem pyWords_nil (p : Char → Bool) : pyWords p [] = [] := rfl

theorem pyWords_cons_pos (p : Char → Bool) (c : Char) (cs : List Char) (hc : p c = true) :
    pyWords p (c :: cs) = pyWords p cs := by
  rw [pyWords.eq_def]
  simp only [if_pos hc]

theorem pyWords_cons (p : Char → Bool) (c : Char) (cs : List Char) :
    pyWords p (c :: cs) =
      if p c then pyWords p cs
      else (c :: cs.takeWhile (fun d => !p d)) :: pyWords p (cs.dropWhile (fun d => !p d)) := by
  by_cases hc : p c
  · rw [pyWords_cons_pos p c cs hc, if_pos hc]
  · rw [if_neg hc]
    induction cs generalizing c with
    | nil =>
      rw [pyWords.eq_def]
      simp only [if_neg hc]
      simp
    | cons d cs2 ih =>
      rw [pyWords.eq_def]
      simp only [if_neg hc]
      by_cases hd : p d
      · have h1 : (d :: cs2).takeWhile (fun e => !p e) = [] := by
          rw [List.takeWhile_cons_of_neg (by simp [hd])]
        have h2 : (d :: cs2).dropWhile (fun e => !p e) = d :: cs2 := by
          rw [List.dropWhile_cons_of_neg (by simp [hd])]
        rw [if_pos hd, h1, h2]
      · have hrec := ih d hd
        rw [if_neg hd, hrec]
        have h1 : (d :: cs2).takeWhile (fun e => !p e)
            = d :: cs2.takeWhile (fun e => !p e) := by
          rw [List.takeWhile_cons_of_pos (by simp [hd])]
        have h2 : (d :: cs2).dropWhile (fun e => !p e)
            = cs2.dropWhile (fun e => !p e) := by
          rw [List.dropWhile_cons_of_pos (by simp [hd])]
        rw [h1, h2]

@[simp] theorem joinSpace_nil : joinSpace [] = [] := rfl

theorem joinSpace_cons (w : List Char) (ws : List (List Char)) :
    joinSpace (w :: ws) = w ++ (if ws = [] then [] else ' ' :: joinSpace ws) := by
  cases ws with
  | nil => simp [joinSpace]
  | cons v vs => simp [joinSpace]

/-! ### Right-strip toolkit -/

@[simp] theorem pyRStrip_nil (p : Char → Bool) : pyRStrip p [] = [] := rfl

theorem pyRStrip_eq_nil_iff (p : Char → Bool) (l : List Char) :
    pyRStrip p l = [] ↔ ∀ c ∈ l, p c = true := by
  unfold pyRStrip
  rw [List.reverse_eq_nil_iff, List.dropWhile_eq_nil_iff]
  constructor
  · intro h c hc
    exact h c (List.mem_reverse.mpr hc)
  · intro h c hc
    exact h c (List.mem_reverse.mp hc)

theorem pyRStrip_cons (p : Char → Bool) (c : Char) (l : List Char) :
    pyRStrip p (c :: l) =
      if pyRStrip p l = [] then (if p c then [] else [c])
      else c :: pyRStrip p l := by
  unfold pyRStrip
  rw [List.reverse_cons, List.dropWhile_append]
  by_cases h : (l.reverse.dropWhile p).isEmpty
  · rw [if_pos h]
    have h2 : (l.reverse.dropWhile p).reverse = [] := by
      rw [List.isEmpty_iff] at h
      simp [h]
    rw [if_pos h2]
    by_cases hc : p c
    · simp [hc]
    · simp [hc]
  · rw [if_neg h]
    have h2 : ¬(l.reverse.dropWhile p).reverse = [] := by
      rw [List.isEmpty_iff] at h
      simp [h]
    rw [if_neg h2]
    simp

theorem pyRStrip_cons_neg (p : Char → Bool) (c : Char) (l : List Char) (hc : p c = false) :
    pyRStrip p (c :: l) = c :: pyRStrip p l := by
  rw [pyRStrip_cons]
  by_cases h : pyRStrip p l = []
  · rw [if_pos h, hc, h]
    simp
  · rw [if_neg h]

theorem pyRStrip_allneg (p : Char → Bool) (l : List Char) (h : ∀ c ∈ l, p c = false) :
    pyRStrip p l = l := by
  induction l with
  | nil => rfl
  | cons c cs ih =>
    rw [pyRStrip_cons_neg p c cs (h c (by simp))]
    rw [ih (fun d hd => h d (by simp [hd]))]

theorem pyRStrip_append (p : Char → Bool) (t r : List Char) :
    pyRStrip p (t ++ r) =
      if pyRStrip p r = [] then pyRStrip p t else t ++ pyRStrip p r := by
  induction t with
  | nil =>
    by_cases h : pyRStrip p r = [] <;> simp [h]
  | cons c cs ih =>
    rw [List.cons_append, pyRStrip_cons, ih, pyRStrip_cons]
    by_cases hr : pyRStrip p r = []
    · simp only [hr, if_true]
    · rw [if_neg hr, if_neg hr]
      have hne : ¬(cs ++ pyRStrip p r) = [] := by
        intro hx
        rcases List.append_eq_nil.mp hx with ⟨_, h2⟩
        exact hr h2
      rw [if_neg hne]
      simp

theorem pyStrip_comm (p : Char → Bool) (l : List Char) :
    pyRStrip p (l.dropWhile p) = (pyRStrip p l).dropWhile p := by
  induction l with
  | nil => rfl
  | cons c cs ih =>
    by_cases hc : p c
    · rw [List.dropWhile_cons_of_pos hc, pyRStrip_cons]
      by_cases h : pyRStrip p cs = []
      · rw [if_pos h, if_pos hc, ih, h]
      · rw [if_neg h, List.dropWhile_cons_of_pos hc, ih]
    · rw [List.dropWhile_cons_of_neg (by simp [hc]),
          pyRStrip_cons_neg p c cs (by simp [hc])]
      exact (List.dropWhile_cons_of_neg (by simp [hc])).symm

/-! ### Word-splitting toolkit -/

theorem pyWords_dropWhile (p : Char → Bool) (l : List Char) :
    pyWords p (l.dropWhile p) = pyWords p l := by
  induction l with
  | nil => simp
  | cons c cs ih =>
    by_cases hc : p c
    · rw [List.dropWhile_cons_of_pos hc, pyWords_cons p c cs, if_pos hc, ih]
    · rw [List.dropWhile_cons_of_neg hc]

theorem pyWords_eq_nil_iff (p : Char → Bool) (l : List Char) :
    pyWords p l = [] ↔ ∀ c ∈ l, p c = true := by
  induction l with
  | nil => simp
  | cons c cs ih =>
    rw [pyWords_cons]
    by_cases hc : p c
    · rw [if_pos hc]
      rw [ih]
      constructor
      · intro h d hd
        rcases List.mem_cons.mp hd with h1 | h1
        · rw [h1]; exact hc
        · exact h d h1
      · intro h d hd
        exact h d (by simp [hd])
    · rw [if_neg hc]
      constructor
      · intro h
        exact absurd h (by simp)
      · intro h
        exact absurd (h c (by simp)) (by simp [hc])

theorem dropWhile_head_not (p : Char → Bool) (l : List Char) (d : Char) (r : List Char)
    (h : l.dropWhile p = d :: r) : p d = false := by
  induction l with
  | nil => simp at h
  | cons c cs ih =>
    rw [List.dropWhile_cons] at h
    split at h
    · exact ih h
    · next hc =>
      injection h with h1 h2
      subst h1
      cases hpc : p c
      · rfl
      · exact absurd hpc hc

theorem dropWhile_idem (p : Char → Bool) (l : List Char) :
    (l.dropWhile p).dropWhile p = l.dropWhile p := by
  cases h : l.dropWhile p with
  | nil => simp
  | cons d r =>
    rw [List.dropWhile_cons_of_neg]
    simp [dropWhile_head_not p l d r h]

theorem pyWords_good (p : Char → Bool) (l : List Char) :
    ∀ w ∈ pyWords p l, w ≠ [] ∧ ∀ c ∈ w, p c = false ∧ c ∈ l := by
  cases l with
  | nil => simp
  | cons c cs =>
    rw [pyWords_cons]
    by_cases hc : p c
    · rw [if_pos hc]
      intro w hw
      have := pyWords_good p cs w hw
      exact ⟨this.1, fun d hd => ⟨(this.2 d hd).1, by simp [(this.2 d hd).2]⟩⟩
    · rw [if_neg hc]
      intro w hw
      rcases List.mem_cons.mp hw with h1 | h1
      · subst h1
        refine ⟨by simp, ?_⟩
        intro d hd
        rcases List.mem_cons.mp hd with h2 | h2
        · subst h2
          exact ⟨by simp [hc], by simp⟩
        · have hpd := List.mem_takeWhile_imp h2
          simp only [Bool.not_eq_true'] at hpd
          exact ⟨hpd, by simp [List.takeWhile_subset _ h2]⟩
      · have hlen : (cs.dropWhile (fun d => !p d)).length < cs.length + 1 :=
          Nat.lt_succ_of_le (length_dropWhile_le _ _)
        have := pyWords_good p (cs.dropWhile (fun d => !p d)) w h1
        exact ⟨this.1, fun d hd =>
          ⟨(this.2 d hd).1, by simp [List.dropWhile_subset _ (this.2 d hd).2]⟩⟩
termination_by l.length
decreasing_by
  · simp
  · exact hlen

theorem joinSpace_ne_nil (W : List (List Char)) (hW : W ≠ [])
    (hw : ∀ w ∈ W, w ≠ []) : joinSpace W ≠ [] := by
  cases W with
  | nil => exact absurd rfl hW
  | cons w ws =>
    rw [joinSpace_cons]
    intro h
    rcases List.append_eq_nil.mp h with ⟨h1, h2⟩
    exact hw w (by simp) h1

theorem joinSpace_mem (W : List (List Char)) (c : Char) (hc : c ∈ joinSpace W) :
    c = ' ' ∨ ∃ w ∈ W, c ∈ w := by
  induction W with
  | nil => simp at hc
  | cons w ws ih =>
    rw [joinSpace_cons] at hc
    rcases List.mem_append.mp hc with h1 | h1
    · exact Or.inr ⟨w, by simp, h1⟩
    · by_cases hws : ws = []
      · rw [if_pos hws] at h1
        simp at h1
      · rw [if_neg hws] at h1
        rcases List.mem_cons.mp h1 with h2 | h2
        · exact Or.inl h2
        · rcases ih h2 with h3 | ⟨v, hv1, hv2⟩
          · exact Or.inl h3
          · exact Or.inr ⟨v, by simp [hv1], hv2⟩

theorem pyWords_joinSpace (W : List (List Char))
    (hW : ∀ w ∈ W, w ≠ [] ∧ ∀ c ∈ w, isPySpace c = false) :
    pyWords isPySpace (joinSpace W) = W := by
  induction W with
  | nil => simp
  | cons w ws ih =>
    obtain ⟨hwne, hwchars⟩ := hW w (by simp)
    cases w with
    | nil => exact absurd rfl hwne
    | cons c t =>
    rw [joinSpace_cons]
    have hct : ∀ d ∈ c :: t, (fun d => !isPySpace d) d = true := by
      intro d hd
      simp [hwchars d hd]
    have hrest : (if ws = [] then ([] : List Char) else ' ' :: joinSpace ws).takeWhile
        (fun d => !isPySpace d) = [] := by
      by_cases hws : ws = []
      · simp [hws]
      · rw [if_neg hws]
        rw [List.takeWhile_cons_of_neg]
        simp [isPySpace]
    have hdrop : (if ws = [] then ([] : List Char) else ' ' :: joinSpace ws).dropWhile
        (fun d => !isPySpace d) = (if ws = [] then [] else ' ' :: joinSpace ws) := by
      by_cases hws : ws = []
      · simp [hws]
      · rw [if_neg hws]
        rw [List.dropWhile_cons_of_neg]
        simp [isPySpace]
    rw [List.cons_append, pyWords_cons, if_neg (by simp [hwchars c (by simp)])]
    rw [List.takeWhile_append_of_pos (fun a ha => hct a (by simp [ha])),
        List.dropWhile_append_of_pos (fun a ha => hct a (by simp [ha])),
        hrest, hdrop]
    by_cases hws : ws = []
    · subst hws
      simp
    · rw [if_neg hws, pyWords_cons, if_pos (by simp [isPySpace]), List.append_nil]
      rw [ih (fun v hv => hW v (by simp [hv]))]

/-! ### Collapse toolkit -/

theorem collapseWs_nonspace_append (t r : List Char)
    (ht : ∀ c ∈ t, isPySpace c = false) :
    collapseWs (t ++ r) = t ++ collapseWs r := by
  induction t with
  | nil => simp
  | cons c cs ih =>
    rw [List.cons_append, collapseWs_cons, if_neg (by simp [ht c (by simp)])]
    rw [ih (fun d hd => ht d (by simp [hd]))]
    simp

theorem collapseWs_allspace (l : List Char) (hl : l ≠ [])
    (h : ∀ c ∈ l, isPySpace c = true) : collapseWs l = [' '] := by
  cases l with
  | nil => exact absurd rfl hl
  | cons c cs =>
    rw [collapseWs_cons, if_pos (h c (by simp))]
    have : cs.dropWhile isPySpace = [] :=
      List.dropWhile_eq_nil_iff.mpr (fun d hd => by simp [h d (by simp [hd])])
    rw [this, collapseWs_nil]

theorem collapseWs_dropWhile (l : List Char) :
    (collapseWs l).dropWhile isPySpace = collapseWs (l.dropWhile isPySpace) := by
  cases l with
  | nil => simp
  | cons c cs =>
    by_cases hc : isPySpace c
    · rw [collapseWs_cons, if_pos hc, List.dropWhile_cons_of_pos (by simp [isPySpace]),
          List.dropWhile_cons_of_pos hc]
      have hlen : (cs.dropWhile isPySpace).length < cs.length + 1 :=
        Nat.lt_succ_of_le (length_dropWhile_le _ _)
      rw [collapseWs_dropWhile (cs.dropWhile isPySpace), dropWhile_idem]
    · conv_lhs => rw [collapseWs_cons, if_neg hc, List.dropWhile_cons_of_neg hc]
      conv_rhs => rw [List.dropWhile_cons_of_neg hc, collapseWs_cons, if_neg hc]
termination_by l.length
decreasing_by
  exact hlen

theorem collapseWs_eq_nil_iff (l : List Char) : collapseWs l = [] ↔ l = [] := by
  cases l with
  | nil => simp
  | cons c cs =>
    rw [collapseWs_cons]
    constructor
    · intro h
      by_cases hc : isPySpace c
      · rw [if_pos hc] at h; simp at h
      · rw [if_neg hc] at h; simp at h
    · intro h
      simp at h

/-! ### Two normal-form lemmas

Both `strip(collapse(l))` and `collapse(strip(l))` equal the canonical form
`" ".join(l.split())`. -/

theorem collapse_strip_eq_join (l : List Char) :
    collapseWs (pyStrip isPySpace l) = joinSpace (pyWords isPySpace l) := by
  cases l with
  | nil => simp [pyStrip, pyLStrip]
  | cons c cs =>
    by_cases hc : isPySpace c
    · have h1 : pyStrip isPySpace (c :: cs) = pyStrip isPySpace cs := by
        unfold pyStrip pyLStrip
        rw [List.dropWhile_cons_of_pos hc]
      rw [h1, collapse_strip_eq_join cs, pyWords_cons, if_pos hc]
    · set t := cs.takeWhile (fun d => !isPySpace d) with hts
      set r := cs.dropWhile (fun d => !isPySpace d) with hrs
      have hcs : cs = t ++ r := (List.takeWhile_append_dropWhile _ _).symm
      have ht : ∀ d ∈ t, isPySpace d = false := by
        intro d hd
        have := List.mem_takeWhile_imp hd
        simpa using this
      have hct : ∀ d ∈ c :: t, isPySpace d = false := by
        intro d hd
        rcases List.mem_cons.mp hd with h1 | h1
        · subst h1; simpa using hc
        · exact ht d h1
      have h1 : pyStrip isPySpace (c :: cs) = pyRStrip isPySpace ((c :: t) ++ r) := by
        unfold pyStrip pyLStrip
        rw [List.dropWhile_cons_of_neg hc, hcs]
        simp
      rw [pyWords_cons, if_neg hc, ← hts, ← hrs]
      by_cases hre : pyRStrip isPySpace r = []
      · have hrall : ∀ d ∈ r, isPySpace d = true := (pyRStrip_eq_nil_iff _ _).mp hre
        have hwr : pyWords isPySpace r = [] := (pyWords_eq_nil_iff _ _).mpr hrall
        rw [h1, pyRStrip_append, if_pos hre, pyRStrip_allneg _ _ hct, hwr,
            joinSpace_cons, if_pos rfl, List.append_nil]
        have := collapseWs_nonspace_append (c :: t) [] hct
        simpa using this
      · have hrne : r ≠ [] := by
          intro hx
          rw [hx] at hre
          simp at hre
        obtain ⟨d, r2, hdr⟩ := List.exists_cons_of_ne_nil hrne
        have hd : isPySpace d = true := by
          have := dropWhile_head_not (fun d => !isPySpace d) cs d r2 (by rw [← hrs, hdr])
          simpa using this
        have hr2 : pyRStrip isPySpace r2 ≠ [] := by
          intro hx
          rw [hdr, pyRStrip_cons, if_pos hx, hd] at hre
          simp at hre
        have hrr : pyRStrip isPySpace r = d :: pyRStrip isPySpace r2 := by
          rw [hdr, pyRStrip_cons, if_neg hr2]
        have hstripr2 : (pyRStrip isPySpace r2).dropWhile isPySpace
            = pyStrip isPySpace r2 := by
          unfold pyStrip pyLStrip
          rw [pyStrip_comm]
        have hr2len : r2.length < cs.length + 1 := by
          have h3 : r.length ≤ cs.length := by
            rw [hrs]; exact length_dropWhile_le _ _
          rw [hdr] at h3
          simp only [List.length_cons] at h3
          omega
        have hrec : collapseWs (pyStrip isPySpace r2)
            = joinSpace (pyWords isPySpace r2) := collapse_strip_eq_join r2
        have hwr2 : pyWords isPySpace r = pyWords isPySpace r2 := by
          rw [hdr, pyWords_cons, if_pos hd]
        have hwne : pyWords isPySpace r2 ≠ [] := by
          intro hx
          have hall : ∀ e ∈ r2, isPySpace e = true := (pyWords_eq_nil_iff _ _).mp hx
          have : pyRStrip isPySpace r2 = [] := (pyRStrip_eq_nil_iff _ _).mpr hall
          exact hr2 this
        rw [h1, pyRStrip_append, if_neg hre, hrr, collapseWs_nonspace_append _ _ hct,
            collapseWs_cons, if_pos hd, hstripr2, hrec, hwr2,
            joinSpace_cons, if_neg hwne]
termination_by l.length
decreasing_by
  · simp
  · exact hr2len

theorem strip_collapse_eq_join (l : List Char) :
    pyStrip isPySpace (collapseWs l) = joinSpace (pyWords isPySpace l) := by
  cases l with
  | nil => simp [pyStrip, pyLStrip]
  | cons c cs =>
    by_cases hc : isPySpace c
    · have h1 : pyStrip isPySpace (collapseWs (c :: cs))
          = pyStrip isPySpace (collapseWs (cs.dropWhile isPySpace)) := by
        unfold pyStrip pyLStrip
        rw [collapseWs_cons, if_pos hc, List.dropWhile_cons_of_pos (by simp [isPySpace]),
            collapseWs_dropWhile, dropWhile_idem]
      have hlen : (cs.dropWhile isPySpace).length < cs.length + 1 :=
        Nat.lt_succ_of_le (length_dropWhile_le _ _)
      rw [h1, strip_collapse_eq_join (cs.dropWhile isPySpace), pyWords_dropWhile,
          pyWords_cons, if_pos hc]
    · set t := cs.takeWhile (fun d => !isPySpace d) with hts
      set r := cs.dropWhile (fun d => !isPySpace d) with hrs
      have hcs : cs = t ++ r := (List.takeWhile_append_dropWhile _ _).symm
      have ht : ∀ d ∈ t, isPySpace d = false := by
        intro d hd
        have := List.mem_takeWhile_imp hd
        simpa using this
      have hct : ∀ d ∈ c :: t, isPySpace d = false := by
        intro d hd
        rcases List.mem_cons.mp hd with h1 | h1
        · subst h1; simpa using hc
        · exact ht d h1
      have h1 : pyStrip isPySpace (collapseWs (c :: cs))
          = pyRStrip isPySpace ((c :: t) ++ collapseWs r) := by
        unfold pyStrip pyLStrip
        rw [collapseWs_cons, if_neg hc]
        conv_lhs => rw [hcs]
        rw [collapseWs_nonspace_append _ _ ht, List.dropWhile_cons_of_neg hc,
            ← List.cons_append]
      rw [pyWords_cons, if_neg hc, ← hts, ← hrs]
      by_cases hre : pyWords isPySpace r = []
      · have hrall : ∀ d ∈ r, isPySpace d = true := (pyWords_eq_nil_iff _ _).mp hre
        have hcr : pyRStrip isPySpace (collapseWs r) = [] := by
          by_cases hrn : r = []
          · rw [hrn]; simp
          · rw [collapseWs_allspace r hrn hrall]
            rw [pyRStrip_cons]
            simp [isPySpace]
        rw [h1, pyRStrip_append, if_pos hcr, pyRStrip_allneg _ _ hct, hre,
            joinSpace_cons, if_pos rfl, List.append_nil]
      · have hrne : r ≠ [] := by
          intro hx
          rw [hx] at hre
          simp at hre
        obtain ⟨d, r2, hdr⟩ := List.exists_cons_of_ne_nil hrne
        have hd : isPySpace d = true := by
          have := dropWhile_head_not (fun d => !isPySpace d) cs d r2 (by rw [← hrs, hdr])
          simpa using this
        have hwr2 : pyWords isPySpace r = pyWords isPySpace r2 := by
          rw [hdr, pyWords_cons, if_pos hd]
        have hwne : pyWords isPySpace r2 ≠ [] := by rw [← hwr2]; exact hre
        have hr2len : r2.length < cs.length + 1 := by
          have h3 : r.length ≤ cs.length := by
            rw [hrs]; exact length_dropWhile_le _ _
          rw [hdr] at h3
          simp only [List.length_cons] at h3
          omega
        have hrec : pyStrip isPySpace (collapseWs r2)
            = joinSpace (pyWords isPySpace r2) := strip_collapse_eq_join r2
        have hcrd : collapseWs r = ' ' :: collapseWs (r2.dropWhile isPySpace) := by
          rw [hdr, collapseWs_cons, if_pos hd]
        have hkey : pyRStrip isPySpace (collapseWs (r2.dropWhile isPySpace))
            = pyStrip isPySpace (collapseWs r2) := by
          unfold pyStrip pyLStrip
          rw [collapseWs_dropWhile]
        have hjne : joinSpace (pyWords isPySpace r2) ≠ [] := by
          apply joinSpace_ne_nil _ hwne
          intro w hw
          exact (pyWords_good isPySpace r2 w hw).1
        have hrstr : pyRStrip isPySpace (collapseWs r)
            = ' ' :: joinSpace (pyWords isPySpace r2) := by
          rw [hcrd, pyRStrip_cons, hkey, hrec, if_neg hjne]
        have hcrne : pyRStrip isPySpace (collapseWs r) ≠ [] := by
          rw [hrstr]; simp
        rw [h1, pyRStrip_append, if_neg hcrne, hrstr, hwr2, joinSpace_cons, if_neg hwne]
termination_by l.length
decreasing_by
  · exact hlen
  · exact hr2len

/-! ### Idempotence of the normalizers -/

theorem map_fixed {f : Char → Char} {l : List Char} (h : ∀ c ∈ l, f c = c) :
    l.map f = l := by
  induction l with
  | nil => rfl
  | cons c cs ih =>
    rw [List.map_cons, h c (by simp), ih (fun d hd => h d (by simp [hd]))]

theorem ampExpand_fixed {l : List Char} (h : ∀ c ∈ l, c ≠ '&') :
    ampExpand l = l := by
  unfold ampExpand
  induction l with
  | nil => rfl
  | cons c cs ih =>
    rw [List.flatMap_cons, if_neg (h c (by simp)), ih (fun d hd => h d (by simp [hd]))]
    rfl

theorem pyWords_chars_fixed {l : List Char} (hfix : ∀ c ∈ l, pyLower c = c)
    (c : Char) (hc : c ∈ joinSpace (pyWords isPySpace l)) : pyLower c = c := by
  rcases joinSpace_mem _ _ hc with h1 | ⟨w, hw, hcw⟩
  · rw [h1]; decide
  · exact hfix c ((pyWords_good isPySpace l w hw).2 c hcw).2

theorem normalize_v1_eq_join (s : List Char) (hs : s ≠ []) :
    normalize_v1 s = joinSpace (pyWords isPySpace (s.map pyLower)) := by
  rw [normalize_v1, if_neg hs, collapse_strip_eq_join]

theorem normalize_v1_idem (s : List Char) :
    normalize_v1 (normalize_v1 s) = normalize_v1 s := by
  by_cases hs : s = []
  · subst hs
    simp [normalize_v1]
  · rw [normalize_v1_eq_join s hs]
    set u := s.map pyLower with hu
    set t := joinSpace (pyWords isPySpace u) with htdef
    by_cases ht : t = []
    · rw [ht]
      simp [normalize_v1]
    · rw [normalize_v1_eq_join t ht]
      have hufix : ∀ c ∈ u, pyLower c = c := by
        intro c hc
        rw [hu] at hc
        obtain ⟨d, _, hd⟩ := List.mem_map.mp hc
        rw [← hd]
        exact pyLower_pyLower d
      have htfix : t.map pyLower = t :=
        map_fixed (fun c hc => pyWords_chars_fixed hufix c (htdef ▸ hc))
      rw [htfix, htdef, pyWords_joinSpace _ (fun w hw =>
        ⟨(pyWords_good isPySpace u w hw).1,
         fun c hc => ((pyWords_good isPySpace u w hw).2 c hc).1⟩)]

theorem ampExpand_lower_fixed (s : List Char) :
    ∀ d ∈ ampExpand (s.map pyLower), pyLower d = d := by
  intro d hd
  unfold ampExpand at hd
  obtain ⟨e, he, hde⟩ := List.mem_flatMap.mp hd
  by_cases hee : e = '&'
  · rw [if_pos hee] at hde
    have hdc : d = ' ' ∨ d = 'a' ∨ d = 'n' ∨ d = 'd' ∨ d = ' ' := by
      simpa using hde
    rcases hdc with h | h | h | h | h <;> rw [h] <;> decide
  · rw [if_neg hee] at hde
    have hde2 : d = e := by simpa using hde
    obtain ⟨e0, _, he0⟩ := List.mem_map.mp he
    rw [hde2, ← he0]
    exact pyLower_pyLower e0

theorem v2Cleaned_chars (s : List Char) :
    ∀ c ∈ v2Cleaned s, (isPyWord c || isPySpace c) = true ∧ pyLower c = c := by
  intro c hc
  unfold v2Cleaned punctToSpace at hc
  obtain ⟨d, hd, hcd⟩ := List.mem_map.mp hc
  by_cases hw : (isPyWord d || isPySpace d) = true
  · rw [if_pos hw] at hcd
    subst hcd
    exact ⟨hw, ampExpand_lower_fixed s d hd⟩
  · rw [if_neg hw] at hcd
    subst hcd
    exact ⟨by decide, by decide⟩

theorem pyWords_good2 (l : List Char) : ∀ w ∈ pyWords isPySpace l,
    w ≠ [] ∧ ∀ c ∈ w, isPySpace c = false :=
  fun w hw => ⟨(pyWords_good _ l w hw).1, fun c hc => ((pyWords_good _ l w hw).2 c hc).1⟩

theorem v2Tokens_eq (s : List Char) :
    v2Tokens s = (pyWords isPySpace (v2Cleaned s)).filter
      (fun tk => !STOPWORDS.contains tk && !LEGAL_SUFFIXES.contains tk) := by
  unfold v2Tokens
  rw [strip_collapse_eq_join, pyWords_joinSpace _ (pyWords_good2 _)]

theorem v2Tokens_good (s : List Char) :
    ∀ w ∈ v2Tokens s, w ≠ [] ∧ ∀ c ∈ w, isPySpace c = false := by
  rw [v2Tokens_eq s]
  intro w hw
  exact pyWords_good2 _ w (List.mem_filter.mp hw).1

theorem v2Tokens_chars (s : List Char) : ∀ w ∈ v2Tokens s, ∀ c ∈ w,
    isPyWord c = true ∧ pyLower c = c := by
  rw [v2Tokens_eq s]
  intro w hw c hc
  have hw2 := (List.mem_filter.mp hw).1
  have hprop := (pyWords_good isPySpace _ w hw2).2 c hc
  have hcc := v2Cleaned_chars s c hprop.2
  refine ⟨?_, hcc.2⟩
  have h1 := hcc.1
  rw [hprop.1] at h1
  simpa using h1

theorem v2Cleaned_join_fixed (s : List Char) :
    v2Cleaned (joinSpace (v2Tokens s)) = joinSpace (v2Tokens s) := by
  have hchars : ∀ c ∈ joinSpace (v2Tokens s),
      (isPyWord c || isPySpace c) = true ∧ pyLower c = c ∧ c ≠ '&' := by
    intro c hc
    rcases joinSpace_mem _ _ hc with h1 | ⟨w, hw, hcw⟩
    · rw [h1]
      exact ⟨by decide, by decide, by decide⟩
    · have h2 := v2Tokens_chars s w hw c hcw
      refine ⟨by simp [h2.1], h2.2, ?_⟩
      intro hx
      rw [hx] at h2
      exact absurd h2.1 (by decide)
  unfold v2Cleaned
  rw [map_fixed (fun c hc => (hchars c hc).2.1),
      ampExpand_fixed (fun c hc => (hchars c hc).2.2)]
  unfold punctToSpace
  exact map_fixed (fun c hc => by rw [if_pos (hchars c hc).1])

theorem normalize_v2_idem (s : List Char) :
    normalize_v2 (normalize_v2 s) = normalize_v2 s := by
  by_cases hs : s = []
  · subst hs
    simp [normalize_v2]
  · have hns : normalize_v2 s = joinSpace (v2Tokens s) := by
      rw [normalize_v2, if_neg hs]
    rw [hns]
    by_cases ht : joinSpace (v2Tokens s) = []
    · rw [ht]
      simp [normalize_v2]
    · rw [normalize_v2, if_neg ht]
      have h1 : v2Tokens (joinSpace (v2Tokens s)) = v2Tokens s := by
        rw [v2Tokens_eq (joinSpace (v2Tokens s)), v2Cleaned_join_fixed s,
            pyWords_joinSpace _ (v2Tokens_good s)]
        conv_rhs => rw [v2Tokens_eq s]
        rw [v2Tokens_eq s, List.filter_filter]
        exact List.filter_congr (fun a _ => by simp)
      rw [h1]

@[simp] theorem lev_nil_left (ys : List Char) : lev [] ys = ys.length := by
  rw [lev]

@[simp] theorem lev_nil_right (xs : List Char) : lev xs [] = xs.length := by
  cases xs with
  | nil => rw [lev]
  | cons x xs => rw [lev]

theorem lev_cons (x y : Char) (xs ys : List Char) :
    lev (x :: xs) (y :: ys) =
      min (lev (x :: xs) ys + 1)
        (min (lev xs (y :: ys) + 1) (lev xs ys + levCost x y)) := by
  rw [lev]

theorem transform_refl (a : List Char) : Transform a a 0 := by
  induction a with
  | nil => exact .nil
  | cons c cs ih => exact .keep c ih

theorem transform_nil_left (b : List Char) : Transform [] b b.length := by
  induction b with
  | nil => exact .nil
  | cons d ds ih => exact .ins d ih

theorem transform_nil_right (a : List Char) : Transform a [] a.length := by
  induction a with
  | nil => exact .nil
  | cons c cs ih => exact .del c ih

theorem lev_le_of_transform {a b : List Char} {n : Nat}
    (h : Transform a b n) : lev a b ≤ n := by
  induction h with
  | nil => simp
  | keep c h ih =>
    rw [lev_cons]
    refine le_trans (le_trans (min_le_right _ _) (min_le_right _ _)) ?_
    simp [levCost]
    omega
  | subst c d hne h ih =>
    rw [lev_cons]
    refine le_trans (le_trans (min_le_right _ _) (min_le_right _ _)) ?_
    simp [levCost, if_neg hne]
    omega
  | ins d h ih =>
    rename_i xs ys n
    cases xs with
    | nil =>
      simp at ih ⊢
      omega
    | cons x xs2 =>
      rw [lev_cons]
      refine le_trans (min_le_left _ _) ?_
      omega
  | del c h ih =>
    rename_i xs ys n
    cases ys with
    | nil =>
      simp at ih ⊢
      omega
    | cons y ys2 =>
      rw [lev_cons]
      refine le_trans (le_trans (min_le_right _ _) (min_le_left _ _)) ?_
      omega

theorem transform_of_lev (a b : List Char) : Transform a b (lev a b) := by
  cases a with
  | nil =>
    rw [lev_nil_left]
    exact transform_nil_left b
  | cons x xs =>
    cases b with
    | nil =>
      rw [lev_nil_right]
      exact transform_nil_right (x :: xs)
    | cons y ys =>
      have hA : Transform (x :: xs) (y :: ys) (lev (x :: xs) ys + 1) :=
        .ins y (transform_of_lev (x :: xs) ys)
      have hB : Transform (x :: xs) (y :: ys) (lev xs (y :: ys) + 1) :=
        .del x (transform_of_lev xs (y :: ys))
      have hC : Transform (x :: xs) (y :: ys) (lev xs ys + levCost x y) := by
        by_cases hxy : x = y
        · subst hxy
          have : levCost x x = 0 := by simp [levCost]
          rw [this, Nat.add_zero]
          exact .keep x (transform_of_lev xs ys)
        · have : levCost x y = 1 := by simp [levCost, hxy]
          rw [this]
          exact .subst x y hxy (transform_of_lev xs ys)
      rw [lev_cons]
      rcases le_or_lt (lev (x :: xs) ys + 1)
        (min (lev xs (y :: ys) + 1) (lev xs ys + levCost x y)) with h1 | h1
      · rw [min_eq_left h1]
        exact hA
      · rw [min_eq_right (le_of_lt h1)]
        rcases le_or_lt (lev xs (y :: ys) + 1) (lev xs ys + levCost x y) with h2 | h2
        · rw [min_eq_left h2]
          exact hB
        · rw [min_eq_right (le_of_lt h2)]
          exact hC
termination_by a.length + b.length
decreasing_by all_goals simp +arith

theorem transform_concat {xs ys zs ws : List Char} {n m : Nat}
    (h1 : Transform xs ys n) (h2 : Transform zs ws m) :
    Transform (xs ++ zs) (ys ++ ws) (n + m) := by
  induction h1 with
  | nil => simpa using h2
  | keep c h ih => exact .keep c ih
  | subst c d hne h ih =>
    have := Transform.subst c d hne ih
    simpa [Nat.succ_add] using this
  | ins d h ih =>
    have := Transform.ins d ih
    simpa [Nat.succ_add] using this
  | del c h ih =>
    have := Transform.del c ih
    simpa [Nat.succ_add] using this

theorem transform_reverse {a b : List Char} {n : Nat} (h : Transform a b n) :
    Transform a.reverse b.reverse n := by
  induction h with
  | nil => exact .nil
  | keep c h ih =>
    have := transform_concat ih (Transform.keep c .nil)
    simpa using this
  | subst c d hne h ih =>
    have := transform_concat ih (Transform.subst c d hne .nil)
    simpa using this
  | ins d h ih =>
    have := transform_concat ih (Transform.ins d .nil)
    simpa using this
  | del c h ih =>
    have := transform_concat ih (Transform.del c .nil)
    simpa using this

theorem lev_reverse (a b : List Char) : lev a.reverse b.reverse = lev a b := by
  apply le_antisymm
  · exact lev_le_of_transform (transform_reverse (transform_of_lev a b))
  · have h := transform_reverse (transform_of_lev a.reverse b.reverse)
    rw [List.reverse_reverse, List.reverse_reverse] at h
    exact lev_le_of_transform h

theorem lev_append_singleton (as bs : List Char) (x y : Char) :
    lev (as ++ [x]) (bs ++ [y]) =
      min (lev (as ++ [x]) bs + 1)
        (min (lev as (bs ++ [y]) + 1) (lev as bs + levCost x y)) := by
  have e1 : lev (as ++ [x]) (bs ++ [y])
      = lev (x :: as.reverse) (y :: bs.reverse) := by
    rw [← lev_reverse]
    simp
  have e2 : lev (x :: as.reverse) bs.reverse = lev (as ++ [x]) bs := by
    rw [← lev_reverse (as ++ [x]) bs]
    simp
  have e3 : lev as.reverse (y :: bs.reverse) = lev as (bs ++ [y]) := by
    rw [← lev_reverse as (bs ++ [y])]
    simp
  have e4 : lev as.reverse bs.reverse = lev as bs := lev_reverse as bs
  rw [e1, lev_cons, e2, e3, e4]

theorem lev_self (a : List Char) : lev a a = 0 :=
  Nat.le_zero.mp (lev_le_of_transform (transform_refl a))

theorem transform_zero {a b : List Char} {n : Nat}
    (h : Transform a b n) (hn : n = 0) : a = b := by
  induction h with
  | nil => rfl
  | keep c h ih => rw [ih hn]
  | subst c d hne h ih => omega
  | ins d h ih => omega
  | del c h ih => omega

theorem lev_eq_zero_iff (a b : List Char) : lev a b = 0 ↔ a = b := by
  constructor
  · intro h
    exact transform_zero (transform_of_lev a b) h
  · intro h
    rw [h]
    exact lev_self b

theorem transform_symm {a b : List Char} {n : Nat} (h : Transform a b n) :
    Transform b a n := by
  induction h with
  | nil => exact .nil
  | keep c h ih => exact .keep c ih
  | subst c d hne h ih => exact .subst d c (Ne.symm hne) ih
  | ins d h ih => exact .del d ih
  | del c h ih => exact .ins c ih

theorem lev_symm (a b : List Char) : lev a b = lev b a :=
  le_antisymm (lev_le_of_transform (transform_symm (transform_of_lev b a)))
    (lev_le_of_transform (transform_symm (transform_of_lev a b)))

theorem range_map_split (n : Nat) (g : Nat → Nat) :
    (List.range (n + 1)).map g = g 0 :: (List.range n).map (fun k => g (k + 1)) := by
  rw [List.range_succ_eq_map, List.map_cons, List.map_map]
  rfl

theorem fbGo_spec (ca : Char) (bs : List Char) : ∀ (bP aP : List Char),
    fbGo ca bs ((List.range bs.length).map (fun k => lev aP (bP ++ bs.take (k + 1))))
      (lev aP bP) (lev (aP ++ [ca]) bP)
    = (List.range bs.length).map (fun k => lev (aP ++ [ca]) (bP ++ bs.take (k + 1))) := by
  induction bs with
  | nil => intro bP aP; rfl
  | cons cb bs2 ih =>
    intro bP aP
    have hhead : ∀ aQ : List Char,
        lev aQ (bP ++ (cb :: bs2).take (0 + 1)) = lev aQ (bP ++ [cb]) := by
      intro aQ
      rw [List.take_succ_cons, List.take_zero]
    have htail : ∀ (aQ : List Char) (k : Nat),
        lev aQ (bP ++ (cb :: bs2).take (k + 1 + 1))
        = lev aQ ((bP ++ [cb]) ++ bs2.take (k + 1)) := by
      intro aQ k
      rw [List.take_succ_cons, List.append_assoc]
      rfl
    rw [List.length_cons, range_map_split, range_map_split, fbGo]
    simp only [List.headD_cons, List.tail_cons, hhead]
    have hv : min (lev (aP ++ [ca]) bP + 1)
        (min (lev aP (bP ++ [cb]) + 1) (lev aP bP + levCost ca cb))
        = lev (aP ++ [ca]) (bP ++ [cb]) := (lev_append_singleton aP bP ca cb).symm
    rw [hv]
    congr 1
    have hmaps : (List.range bs2.length).map
          (fun k => lev aP (bP ++ (cb :: bs2).take (k + 1 + 1)))
        = (List.range bs2.length).map
          (fun k => lev aP ((bP ++ [cb]) ++ bs2.take (k + 1))) :=
      List.map_congr_left (fun k _ => htail aP k)
    rw [hmaps, ih (bP ++ [cb]) aP]
    exact List.map_congr_left (fun k _ => (htail (aP ++ [ca]) k).symm)

theorem fbRow_spec (ca : Char) (aP b : List Char) :
    fbRow ca (aP.length + 1) (rowFull aP b) b = rowFull (aP ++ [ca]) b := by
  have hsplit : ∀ aQ : List Char, rowFull aQ b
      = lev aQ [] :: (List.range b.length).map (fun k => lev aQ (b.take (k + 1))) := by
    intro aQ
    unfold rowFull
    rw [range_map_split]
    simp
  rw [hsplit aP, hsplit (aP ++ [ca])]
  unfold fbRow
  simp only [List.headD_cons, List.tail_cons, lev_nil_right]
  have h2 := fbGo_spec ca b [] aP
  simp only [List.nil_append, lev_nil_right] at h2
  simp only [List.length_append, List.length_cons, List.length_nil] at h2 ⊢
  rw [← h2]

theorem fbRows_spec (b : List Char) : ∀ (as aP : List Char),
    fbRows b as (aP.length + 1) (rowFull aP b) = rowFull (aP ++ as) b := by
  intro as
  induction as with
  | nil =>
    intro aP
    rw [fbRows]
    simp
  | cons ca as2 ih =>
    intro aP
    rw [fbRows, fbRow_spec]
    have h1 : aP.length + 1 + 1 = (aP ++ [ca]).length + 1 := by simp
    rw [h1, ih (aP ++ [ca])]
    congr 1
    simp

theorem rowFull_getLast (a b : List Char) : (rowFull a b).getLastD 0 = lev a b := by
  unfold rowFull
  rw [List.range_succ, List.map_append]
  simp only [List.map_cons, List.map_nil]
  rw [List.getLastD_concat]
  rw [List.take_length]

theorem compute_distance_eq_lev (a b : List Char) : compute_distance a b = lev a b := by
  unfold compute_distance
  by_cases hab : a = b
  · rw [if_pos hab, hab, lev_self]
  · rw [if_neg hab]
    by_cases ha : a = []
    · rw [if_pos ha, ha]
      simp
    · rw [if_neg ha]
      by_cases hb : b = []
      · rw [if_pos hb, hb]
        simp
      · rw [if_neg hb]
        have hinit : rowFull [] b = List.range (b.length + 1) := by
          unfold rowFull
          have h2 : ∀ j ∈ List.range (b.length + 1), lev [] (b.take j) = j := by
            intro j hj
            rw [lev_nil_left, List.length_take]
            have := List.mem_range.mp hj
            omega
          rw [List.map_congr_left h2]
          exact List.map_id _
        rw [show List.range (b.length + 1) = rowFull [] b from hinit.symm]
        have h3 : fbRows b a 1 (rowFull [] b)
            = fbRows b a (List.length ([] : List Char) + 1) (rowFull [] b) := rfl
        rw [h3, fbRows_spec b a [], List.nil_append, rowFull_getLast]

/-! ### Facts about one scored pair and about group minima -/

theorem score_pair_eq {nv : NormVersion} {maxDist : Nat} {pr : PairRow}
    {row : ResultRow} (h : score_pair nv maxDist pr = some row) :
    row.Dist = name_dist nv maxDist pr.bi.BIName pr.sf.SFName ∧
    row.Dist ≤ maxDist ∧
    row.EmailScore = email_score pr.bi.BIEmail pr.sf.SFEmail ∧
    row.AddressCityScore
      = city_score pr.bi.BICity pr.sf.SFBillingCity pr.sf.SFShippingCity ∧
    row.StateScore
      = state_score pr.bi.BIState pr.sf.SFBillingState pr.sf.SFShippingState ∧
    row.TotalScore
      = (row.Dist : Int) + row.EmailScore + row.AddressCityScore + row.StateScore ∧
    row.BuildOpsEmail = pr.bi.BIEmail ∧ row.SalesforceEmail = pr.sf.SFEmail ∧
    row.BuildOpsCity = pr.bi.BICity ∧
    row.SalesforceCityBilling = pr.sf.SFBillingCity ∧
    row.SalesforceCityShipping = pr.sf.SFShippingCity ∧
    row.BuildOpsState = pr.bi.BIState ∧
    row.SalesforceStateBilling = pr.sf.SFBillingState ∧
    row.SalesforceStateShipping = pr.sf.SFShippingState := by
  unfold score_pair at h
  by_cases hcmp : maxDist < name_dist nv maxDist pr.bi.BIName pr.sf.SFName
  · rw [if_pos hcmp] at h
    exact absurd h (by simp)
  · rw [if_neg hcmp] at h
    have h2 := Option.some.inj h
    subst h2
    refine ⟨rfl, Nat.le_of_not_lt hcmp, rfl, rfl, rfl, rfl, rfl, rfl, rfl, rfl, rfl,
      rfl, rfl, rfl⟩

theorem foldl_min_le (xs : List Int) : ∀ (x y : Int), y ∈ x :: xs →
    xs.foldl min x ≤ y := by
  induction xs with
  | nil =>
    intro x y hy
    simp at hy
    simp [hy]
  | cons a as ih =>
    intro x y hy
    rw [List.foldl_cons]
    rcases List.mem_cons.mp hy with h | h
    · subst h
      exact le_trans (ih (min y a) (min y a) (by simp)) (min_le_left _ _)
    · rcases List.mem_cons.mp h with h2 | h2
      · subst h2
        exact le_trans (ih (min x y) (min x y) (by simp)) (min_le_right _ _)
      · exact ih (min x a) y (by simp [h2])

theorem foldl_min_mem (xs : List Int) : ∀ (x : Int), xs.foldl min x ∈ x :: xs := by
  induction xs with
  | nil =>
    intro x
    simp
  | cons a as ih =>
    intro x
    rw [List.foldl_cons]
    rcases List.mem_cons.mp (ih (min x a)) with h | h
    · rcases le_total x a with hxa | hxa
      · rw [h, min_eq_left hxa]
        simp
      · rw [h, min_eq_right hxa]
        simp
    · exact List.mem_cons.mpr (Or.inr (List.mem_cons.mpr (Or.inr h)))

theorem group_min_le (rs : List ResultRow) (cid : String) (r : ResultRow)
    (hr : r ∈ rs) (hcid : r.CustomerId = cid) : group_min rs cid ≤ r.TotalScore := by
  have hmem : r.TotalScore ∈ (rs.filter (fun r => r.CustomerId == cid)).map
      (fun r => r.TotalScore) :=
    List.mem_map.mpr ⟨r, List.mem_filter.mpr ⟨hr, by simp [hcid]⟩, rfl⟩
  unfold group_min
  cases hm : (rs.filter (fun r => r.CustomerId == cid)).map (fun r => r.TotalScore) with
  | nil =>
    rw [hm] at hmem
    simp at hmem
  | cons x xs =>
    rw [hm] at hmem
    exact foldl_min_le xs x r.TotalScore hmem

theorem group_min_attained (rs : List ResultRow) (cid : String) (r : ResultRow)
    (hr : r ∈ rs) (hcid : r.CustomerId = cid) :
    ∃ r2 ∈ rs, r2.CustomerId = cid ∧ r2.TotalScore = group_min rs cid := by
  have hmem : r.TotalScore ∈ (rs.filter (fun r => r.CustomerId == cid)).map
      (fun r => r.TotalScore) :=
    List.mem_map.mpr ⟨r, List.mem_filter.mpr ⟨hr, by simp [hcid]⟩, rfl⟩
  unfold group_min
  cases hm : (rs.filter (fun r => r.CustomerId == cid)).map (fun r => r.TotalScore) with
  | nil =>
    rw [hm] at hmem
    simp at hmem
  | cons x xs =>
    have hval := foldl_min_mem xs x
    rw [← hm] at hval
    obtain ⟨r2, hr2, hr2eq⟩ := List.mem_map.mp hval
    have hr2f := List.mem_filter.mp hr2
    exact ⟨r2, hr2f.1, by simpa using hr2f.2, hr2eq⟩

theorem compute_matches_mem {nv : NormVersion} {maxDist : Nat} {pairs : List PairRow}
    {r : FlaggedRow} (hr : r ∈ compute_matches nv maxDist pairs) :
    r.toResultRow ∈ scored_rows nv maxDist pairs ∧
    r.BestMatchFlag = (if r.TotalScore
      = group_min (scored_rows nv maxDist pairs) r.CustomerId then 1 else 0) := by
  unfold compute_matches at hr
  obtain ⟨r0, hr0, heq⟩ := List.mem_map.mp hr
  subst heq
  exact ⟨hr0, rfl⟩

theorem scored_rows_mem {nv : NormVersion} {maxDist : Nat} {pairs : List PairRow}
    {r : ResultRow} (hr : r ∈ scored_rows nv maxDist pairs) :
    ∃ pr ∈ pairs, score_pair nv maxDist pr = some r := by
  unfold scored_rows at hr
  exact List.mem_filterMap.mp hr

theorem score_pair_spec_eq {R : RatioFns} {nv : NormVersion} {maxDist : Nat}
    {s : SourceRecord} {rr : ReferenceRecord} {row : SpecResult}
    (h : score_pair_spec R nv maxDist s rr = some row) :
    row.name_distance = name_dist_spec R nv maxDist s.name rr.name ∧
    row.name_distance ≤ maxDist ∧
    row.email_score = email_score_spec s.email rr.email ∧
    row.phone_score = phone_score_spec s.phone rr.phone ∧
    row.zip_score = zip_score s.zip rr.billing_postal_code rr.shipping_postal_code ∧
    row.city_score = city_score s.city rr.billing_city rr.shipping_city ∧
    row.state_score = state_score s.state rr.billing_state rr.shipping_state ∧
    row.multi_signal_bonus = multi_signal_bonus row.name_distance row.email_score
      row.phone_score row.zip_score row.city_score row.state_score ∧
    row.total_score = (row.name_distance : Int) + row.email_score + row.phone_score
      + row.zip_score + row.city_score + row.state_score + row.multi_signal_bonus ∧
    row.confidence_band = confidence_band row.total_score := by
  unfold score_pair_spec at h
  by_cases hcmp : maxDist < name_dist_spec R nv maxDist s.name rr.name
  · rw [if_pos hcmp] at h
    exact absurd h (by simp)
  · rw [if_neg hcmp] at h
    have h2 := Option.some.inj h
    subst h2
    exact ⟨rfl, Nat.le_of_not_lt hcmp, rfl, rfl, rfl, rfl, rfl, rfl, rfl, rfl⟩

theorem compute_matches_spec_mem {R : RatioFns} {nv : NormVersion} {maxDist : Nat}
    {pairs : List (SourceRecord × ReferenceRecord)} {r : SpecFlagged}
    (hr : r ∈ compute_matches_spec R nv maxDist pairs) :
    ∃ pr ∈ pairs, score_pair_spec R nv maxDist pr.1 pr.2 = some r.toSpecResult := by
  unfold compute_matches_spec at hr
  obtain ⟨r0, hr0, heq⟩ := List.mem_map.mp hr
  subst heq
  exact List.mem_filterMap.mp hr0

/-! ### Blocking membership and group structure -/

/-- C6 (amended): the blocker produces exactly the pairs of records whose
RAW names agree on the uppercased first character — where two records whose
raw names are both empty also agree (both keys are missing, and pandas
`merge` matches missing keys) — and whose raw-name lengths differ by at most
3; it is a total function, so no input crashes it. -/
theorem claim_block_pairs_raw_membership (dfSF : List SFRow) (dfBI : List BIRow)
    (bi : BIRow) (sf : SFRow) :
    (bi, sf) ∈ block_pairs dfSF dfBI ↔
      bi ∈ dfBI ∧ sf ∈ dfSF ∧
      first_char_key bi.BIName = first_char_key sf.SFName ∧
      ((bi.BIName.length : Int) - (sf.SFName.length : Int)).natAbs ≤ 3 := by
  unfold block_pairs
  by_cases he : dfSF = [] ∨ dfBI = []
  · rw [if_pos he]
    simp only [List.not_mem_nil, false_iff]
    rintro ⟨h1, h2, -, -⟩
    rcases he with h | h
    · rw [h] at h2
      simp at h2
    · rw [h] at h1
      simp at h1
  · rw [if_neg he, List.mem_filter, List.mem_flatMap]
    constructor
    · rintro ⟨⟨bi2, hbi2, hfm⟩, hlen⟩
      obtain ⟨sf2, hsf2, hif⟩ := List.mem_filterMap.mp hfm
      by_cases hk : first_char_key bi2.BIName = first_char_key sf2.SFName
      · rw [if_pos hk] at hif
        have hp := Option.some.inj hif
        have hb : bi2 = bi := congrArg Prod.fst hp
        have hs : sf2 = sf := congrArg Prod.snd hp
        subst hb
        subst hs
        exact ⟨hbi2, hsf2, hk, by simpa using hlen⟩
      · rw [if_neg hk] at hif
        simp at hif
    · rintro ⟨hbi, hsf, hk, hlen⟩
      refine ⟨⟨bi, hbi, ?_⟩, by simpa using hlen⟩
      exact List.mem_filterMap.mpr ⟨sf, hsf, by rw [if_pos hk]⟩

theorem compute_matches_eq_map (nv : NormVersion) (maxDist : Nat)
    (pairs : List PairRow) :
    compute_matches nv maxDist pairs
      = (scored_rows nv maxDist pairs).map (flag_row (scored_rows nv maxDist pairs)) :=
  rfl

theorem grp_eq (nv : NormVersion) (maxDist : Nat) (pairs : List PairRow)
    (cid : String) :
    (compute_matches nv maxDist pairs).filter (fun r => r.CustomerId == cid)
      = ((scored_rows nv maxDist pairs).filter (fun r0 => r0.CustomerId == cid)).map
          (flag_row (scored_rows nv maxDist pairs)) := by
  rw [compute_matches_eq_map, List.filter_map]
  rfl

/-! ## The claims -/

/-- C9: in both normalizer modes (legacy v1 and aggressive v2), normalization
is idempotent: `normalize(normalize(x)) == normalize(x)` for every input
string. -/
theorem claim_normalize_idempotent (nv : NormVersion) (x : List Char) :
    normalize nv (normalize nv x) = normalize nv x := by
  cases nv
  · exact normalize_v1_idem x
  · exact normalize_v2_idem x

/-- C10: the pure-Python fallback branch of `compute_distance` returns
exactly the Levenshtein edit distance: it equals the edit-distance
recurrence `lev`, its value is attained by an edit script (`Transform`) and
is minimal among all edit scripts, and consequently it is symmetric and
returns 0 exactly when the two strings are equal. -/
theorem claim_compute_distance_is_levenshtein (a b : List Char) :
    compute_distance a b = lev a b ∧
    Transform a b (compute_distance a b) ∧
    (∀ n, Transform a b n → compute_distance a b ≤ n) ∧
    compute_distance a b = compute_distance b a ∧
    (compute_distance a b = 0 ↔ a = b) := by
  have he := compute_distance_eq_lev a b
  refine ⟨he, ?_, ?_, ?_, ?_⟩
  · rw [he]
    exact transform_of_lev a b
  · intro n hn
    rw [he]
    exact lev_le_of_transform hn
  · rw [he, compute_distance_eq_lev b a]
    exact lev_symm a b
  · rw [he]
    exact lev_eq_zero_iff a b

/-- Witness for C10 at a concrete input: the edit script that deletes `'a'`
from `"ab"` shows `compute_distance "ab" "b" ≤ 1`. -/
theorem claim_compute_distance_is_levenshtein_witness :
    compute_distance "ab".toList "b".toList ≤ 1 :=
  (claim_compute_distance_is_levenshtein "ab".toList "b".toList).2.2.1 1
    (Transform.del 'a' (Transform.keep 'b' Transform.nil))

/-- C8: the short-name rule of `compute_matches`: when the shorter normalized
name has fewer than 4 characters, the name distance is `max_dist + 1` if it
is empty, 0 if the two normalized names coincide, and `max 4 max_dist`
otherwise. -/
theorem claim_short_name_rule (nv : NormVersion) (maxDist : Nat)
    (biRaw sfRaw : String)
    (h : min (normalize nv biRaw.toList).length (normalize nv sfRaw.toList).length < 4) :
    name_dist nv maxDist biRaw sfRaw =
      (if min (normalize nv biRaw.toList).length (normalize nv sfRaw.toList).length = 0
       then maxDist + 1
       else if normalize nv biRaw.toList = normalize nv sfRaw.toList then 0
       else max 4 maxDist) := by
  unfold name_dist
  by_cases h0 : min (normalize nv biRaw.toList).length
      (normalize nv sfRaw.toList).length = 0
  · rw [if_pos h0, if_pos h0]
  · rw [if_neg h0, if_neg h0, if_pos h]

/-- Witness for C8 at concrete inputs: two distinct short names score
`max 4 5 = 5` and an empty name scores `5 + 1`. -/
theorem claim_short_name_rule_witness :
    name_dist .v1 5 "ab" "abc" = 5 ∧ name_dist .v1 5 "" "abcd" = 6 := by
  constructor
  · rw [claim_short_name_rule .v1 5 "ab" "abc" (by decide)]
    decide
  · rw [claim_short_name_rule .v1 5 "" "abcd" (by decide)]
    decide

/-- C3: every row emitted by `compute_matches` has `Dist ≤ max_dist`, and a
candidate pair whose name distance exceeds `max_dist` is dropped before any
field scoring (`score_pair` returns `none`). -/
theorem claim_emitted_dist_le_threshold (nv : NormVersion) (maxDist : Nat)
    (pairs : List PairRow) :
    (∀ r ∈ compute_matches nv maxDist pairs, r.Dist ≤ maxDist) ∧
    (∀ pr : PairRow, maxDist < name_dist nv maxDist pr.bi.BIName pr.sf.SFName →
      score_pair nv maxDist pr = none) := by
  constructor
  · intro r hr
    have h1 := (compute_matches_mem hr).1
    obtain ⟨pr, hpr, hsome⟩ := scored_rows_mem h1
    exact (score_pair_eq hsome).2.1
  · intro pr hgt
    unfold score_pair
    rw [if_pos hgt]

/-- Witness for C3: the single surviving row of a concrete run respects the
threshold. -/
theorem claim_emitted_dist_le_threshold_witness :
    ((compute_matches .v1 3 [pairA]).headD default).Dist ≤ 3 :=
  (claim_emitted_dist_le_threshold .v1 3 [pairA]).1
    ((compute_matches .v1 3 [pairA]).headD default) (by decide)

/-- C6 counterexample: the blocker keys on the raw name, not the normalized
name — `" Acme"` vs `"Acme"` have equal normalized names (same uppercased
first character, equal lengths) yet produce no candidate pair — and two
records with empty names DO pair up (missing keys join, as pandas merges
NaN keys), contradicting both halves of the claim. -/
theorem claim_blocker_counterexample :
    ((normalize .v1 " Acme".toList).head?.map pyUpper
        = (normalize .v1 "Acme".toList).head?.map pyUpper ∧
      (((normalize .v1 " Acme".toList).length : Int)
        - ((normalize .v1 "Acme".toList).length : Int)).natAbs ≤ 3 ∧
      (biCex, sfCex) ∉ block_pairs [sfCex] [biCex]) ∧
    (biEmptyName, sfEmptyName) ∈ block_pairs [sfEmptyName] [biEmptyName] := by
  decide

/-- C7 counterexample: a surviving pair whose source-side city and state are
empty receives the contradicting score +1 for those attributes, not the
neutral 0 that the claim requires for missing values. -/
theorem claim_missing_city_scores_positive :
    ((compute_matches .v1 3 [pairC7]).headD default).BuildOpsCity = "" ∧
    ((compute_matches .v1 3 [pairC7]).headD default).AddressCityScore = 1 ∧
    ((compute_matches .v1 3 [pairC7]).headD default).BuildOpsState = "" ∧
    ((compute_matches .v1 3 [pairC7]).headD default).StateScore = 1 := by
  decide

/-- C4: within each CustomerId group of the emitted rows, a row carries
`BestMatchFlag = 1` exactly when its total score is minimal in the group (so
ties are all flagged), every other row carries 0, at least one row of every
non-empty group is flagged, and all flagged rows of a group share the same
total score. -/
theorem claim_best_match_flag (nv : NormVersion) (maxDist : Nat)
    (pairs : List PairRow) (cid : String) :
    ((compute_matches nv maxDist pairs).filter (fun r => r.CustomerId == cid) ≠ [] →
      ∃ r ∈ (compute_matches nv maxDist pairs).filter (fun r => r.CustomerId == cid),
        r.BestMatchFlag = 1) ∧
    (∀ r ∈ (compute_matches nv maxDist pairs).filter (fun r => r.CustomerId == cid),
      (r.BestMatchFlag = 1 ↔
        ∀ r2 ∈ (compute_matches nv maxDist pairs).filter (fun r => r.CustomerId == cid),
          r.TotalScore ≤ r2.TotalScore) ∧
      (r.BestMatchFlag = 0 ∨ r.BestMatchFlag = 1) ∧
      ∀ r2 ∈ (compute_matches nv maxDist pairs).filter (fun r => r.CustomerId == cid),
        r.BestMatchFlag = 1 → r2.BestMatchFlag = 1 →
        r.TotalScore = r2.TotalScore) := by
  have hgrp := grp_eq nv maxDist pairs cid
  have hmemiff : ∀ x, (x ∈ (compute_matches nv maxDist pairs).filter
        (fun r => r.CustomerId == cid)) ↔
      ∃ r0, (r0 ∈ scored_rows nv maxDist pairs ∧ r0.CustomerId = cid) ∧
        x = flag_row (scored_rows nv maxDist pairs) r0 := by
    intro x
    rw [hgrp, List.mem_map]
    constructor
    · rintro ⟨r0, hr0, hx⟩
      have h2 := List.mem_filter.mp hr0
      exact ⟨r0, ⟨h2.1, by simpa using h2.2⟩, hx.symm⟩
    · rintro ⟨r0, ⟨h1, h2⟩, hx⟩
      exact ⟨r0, List.mem_filter.mpr ⟨h1, by simp [h2]⟩, hx.symm⟩
  have hflag1 : ∀ r0, r0 ∈ scored_rows nv maxDist pairs → r0.CustomerId = cid →
      ((flag_row (scored_rows nv maxDist pairs) r0).BestMatchFlag = 1 ↔
        r0.TotalScore = group_min (scored_rows nv maxDist pairs) cid) := by
    intro r0 _ hc
    show (if r0.TotalScore = group_min (scored_rows nv maxDist pairs) r0.CustomerId
      then 1 else 0) = 1 ↔ _
    rw [hc]
    by_cases hv : r0.TotalScore = group_min (scored_rows nv maxDist pairs) cid
    · simp [hv]
    · simp [hv]
  have hle : ∀ r0, r0 ∈ scored_rows nv maxDist pairs → r0.CustomerId = cid →
      ((∀ x ∈ (compute_matches nv maxDist pairs).filter (fun r => r.CustomerId == cid),
          r0.TotalScore ≤ x.TotalScore) ↔
        r0.TotalScore = group_min (scored_rows nv maxDist pairs) cid) := by
    intro r0 h0 hc
    constructor
    · intro hall
      obtain ⟨rm, hrm, hrmc, hrmeq⟩ :=
        group_min_attained (scored_rows nv maxDist pairs) cid r0 h0 hc
      have hx : flag_row (scored_rows nv maxDist pairs) rm
          ∈ (compute_matches nv maxDist pairs).filter (fun r => r.CustomerId == cid) :=
        (hmemiff _).mpr ⟨rm, ⟨hrm, hrmc⟩, rfl⟩
      have h3 := hall _ hx
      have h2 := group_min_le (scored_rows nv maxDist pairs) cid r0 h0 hc
      exact le_antisymm (hrmeq ▸ h3) h2
    · intro heq x hx
      obtain ⟨r2, ⟨h2m, h2c⟩, hx2⟩ := (hmemiff x).mp hx
      subst hx2
      have h3 := group_min_le (scored_rows nv maxDist pairs) cid r2 h2m h2c
      show r0.TotalScore ≤ r2.TotalScore
      rw [heq]
      exact h3
  constructor
  · intro hne
    obtain ⟨x, hx⟩ := List.exists_mem_of_ne_nil _ hne
    obtain ⟨r0, ⟨h0, hc⟩, -⟩ := (hmemiff x).mp hx
    obtain ⟨rm, hrm, hrmc, hrmeq⟩ :=
      group_min_attained (scored_rows nv maxDist pairs) cid r0 h0 hc
    refine ⟨flag_row (scored_rows nv maxDist pairs) rm,
      (hmemiff _).mpr ⟨rm, ⟨hrm, hrmc⟩, rfl⟩, ?_⟩
    exact (hflag1 rm hrm hrmc).mpr hrmeq
  · intro r hr
    obtain ⟨r0, ⟨h0, hc⟩, hreq⟩ := (hmemiff r).mp hr
    subst hreq
    have hiff : (flag_row (scored_rows nv maxDist pairs) r0).BestMatchFlag = 1 ↔
        ∀ r2 ∈ (compute_matches nv maxDist pairs).filter (fun r => r.CustomerId == cid),
          (flag_row (scored_rows nv maxDist pairs) r0).TotalScore ≤ r2.TotalScore :=
      (hflag1 r0 h0 hc).trans (hle r0 h0 hc).symm
    refine ⟨hiff, ?_, ?_⟩
    · show (if r0.TotalScore = group_min (scored_rows nv maxDist pairs) r0.CustomerId
        then (1 : Nat) else 0) = 0 ∨
        (if r0.TotalScore = group_min (scored_rows nv maxDist pairs) r0.CustomerId
        then (1 : Nat) else 0) = 1
      by_cases hv : r0.TotalScore
          = group_min (scored_rows nv maxDist pairs) r0.CustomerId
      · right
        rw [if_pos hv]
      · left
        rw [if_neg hv]
    · intro r2 hr2 hf1 hf2
      obtain ⟨r2b, ⟨h2m, h2c⟩, hr2eq⟩ := (hmemiff r2).mp hr2
      subst hr2eq
      have e1 := (hflag1 r0 h0 hc).mp hf1
      have e2 := (hflag1 r2b h2m h2c).mp hf2
      show r0.TotalScore = r2b.TotalScore
      rw [e1, e2]

/-- Witness for C4: a concrete run with two candidates for the same customer
id has a flagged best row. -/
theorem claim_best_match_flag_witness :
    ∃ r ∈ (compute_matches .v1 3 [pairA, pairB]).filter
      (fun r => r.CustomerId == "c1"), r.BestMatchFlag = 1 :=
  (claim_best_match_flag .v1 3 [pairA, pairB] "c1").1 (by decide)

theorem filter2_empty_iff (x y : List Char) :
    ([x, y].filter (fun c => !c.isEmpty) = []) ↔ (x = [] ∧ y = []) := by
  by_cases hx : x = [] <;> by_cases hy : y = [] <;>
    simp [List.filter_cons, List.filter_nil, hx, hy]

theorem city_score_missing_cases (bc c1 c2 : String) :
    (pyStripLower bc = [] ∧ pyStripLower c1 = [] ∧ pyStripLower c2 = [] →
      city_score bc c1 c2 = 0) ∧
    (pyStripLower bc = [] ∧ ¬(pyStripLower c1 = [] ∧ pyStripLower c2 = []) →
      city_score bc c1 c2 = 1) ∧
    (pyStripLower bc ≠ [] ∧ pyStripLower c1 = [] ∧ pyStripLower c2 = [] →
      city_score bc c1 c2 = 1) := by
  unfold city_score
  refine ⟨?_, ?_, ?_⟩
  · rintro ⟨h0, h1, h2⟩
    rw [if_pos ⟨h0, (filter2_empty_iff _ _).mpr ⟨h1, h2⟩⟩]
  · rintro ⟨h0, h12⟩
    rw [if_neg, if_neg]
    · rintro ⟨hb, -⟩
      exact hb h0
    · rintro ⟨-, hcs⟩
      exact h12 ((filter2_empty_iff _ _).mp hcs)
  · rintro ⟨h0, h1, h2⟩
    rw [if_neg, if_neg]
    · rintro ⟨-, hmem⟩
      rw [(filter2_empty_iff _ _).mpr ⟨h1, h2⟩] at hmem
      simp at hmem
    · rintro ⟨hb, -⟩
      exact h0 hb

theorem state_score_missing_cases (bs s1 s2 : String) :
    (normalize_state (pyStrip isPySpace bs.toList) = [] ∧
      normalize_state (pyStrip isPySpace s1.toList) = [] ∧
      normalize_state (pyStrip isPySpace s2.toList) = [] →
      state_score bs s1 s2 = 0) ∧
    (normalize_state (pyStrip isPySpace bs.toList) = [] ∧
      ¬(normalize_state (pyStrip isPySpace s1.toList) = [] ∧
        normalize_state (pyStrip isPySpace s2.toList) = []) →
      state_score bs s1 s2 = 1) ∧
    (normalize_state (pyStrip isPySpace bs.toList) ≠ [] ∧
      normalize_state (pyStrip isPySpace s1.toList) = [] ∧
      normalize_state (pyStrip isPySpace s2.toList) = [] →
      state_score bs s1 s2 = 1) := by
  unfold state_score
  refine ⟨?_, ?_, ?_⟩
  · rintro ⟨h0, h1, h2⟩
    rw [if_pos ⟨h0, (filter2_empty_iff _ _).mpr ⟨h1, h2⟩⟩]
  · rintro ⟨h0, h12⟩
    rw [if_neg, if_neg]
    · rintro ⟨hb, -⟩
      exact hb h0
    · rintro ⟨-, hcs⟩
      exact h12 ((filter2_empty_iff _ _).mp hcs)
  · rintro ⟨h0, h1, h2⟩
    rw [if_neg, if_neg]
    · rintro ⟨-, hmem⟩
      rw [(filter2_empty_iff _ _).mpr ⟨h1, h2⟩] at hmem
      simp at hmem
    · rintro ⟨hb, -⟩
      exact h0 hb

/-- C7 (amended): missing values are neutral for email (either side missing
gives 0), phone (either side without digits gives 0, via `scorer.py`) and
zip (source side without a 5-digit zip gives 0, spec-modelled); but the city
and state scores of `compute_matches` are 0 only when BOTH sides are
missing — when exactly one side carries a value they score +1
(contradicting), not 0. -/
theorem claim_missing_values_scoring (nv : NormVersion) (maxDist : Nat)
    (pairs : List PairRow) (r : FlaggedRow)
    (hr : r ∈ compute_matches nv maxDist pairs) :
    ((pyStripLower r.BuildOpsEmail = [] ∨ pyStripLower r.SalesforceEmail = []) →
      r.EmailScore = 0) ∧
    ((pyStripLower r.BuildOpsCity = [] ∧ pyStripLower r.SalesforceCityBilling = [] ∧
      pyStripLower r.SalesforceCityShipping = []) → r.AddressCityScore = 0) ∧
    ((pyStripLower r.BuildOpsCity = [] ∧ ¬(pyStripLower r.SalesforceCityBilling = [] ∧
      pyStripLower r.SalesforceCityShipping = [])) → r.AddressCityScore = 1) ∧
    ((pyStripLower r.BuildOpsCity ≠ [] ∧ pyStripLower r.SalesforceCityBilling = [] ∧
      pyStripLower r.SalesforceCityShipping = []) → r.AddressCityScore = 1) ∧
    ((normalize_state (pyStrip isPySpace r.BuildOpsState.toList) = [] ∧
      normalize_state (pyStrip isPySpace r.SalesforceStateBilling.toList) = [] ∧
      normalize_state (pyStrip isPySpace r.SalesforceStateShipping.toList) = []) →
      r.StateScore = 0) ∧
    ((normalize_state (pyStrip isPySpace r.BuildOpsState.toList) = [] ∧
      ¬(normalize_state (pyStrip isPySpace r.SalesforceStateBilling.toList) = [] ∧
        normalize_state (pyStrip isPySpace r.SalesforceStateShipping.toList) = [])) →
      r.StateScore = 1) ∧
    (∀ p1 p2 : String, normalize_phone p1 = [] ∨ normalize_phone p2 = [] →
      phone_score p1 p2 = 0) ∧
    (∀ z z1 z2 : String, normalize_zip z = [] → zip_score z z1 z2 = 0) := by
  have h1 := (compute_matches_mem hr).1
  obtain ⟨pr, hpr, hsome⟩ := scored_rows_mem h1
  have h := score_pair_eq hsome
  obtain ⟨-, -, hemail, hcity, hstate, -, hbe, hse, hbc, hcb, hcs, hbs, hsb, hss⟩ := h
  refine ⟨?_, ?_, ?_, ?_, ?_, ?_, ?_, ?_⟩
  · intro hmiss
    rw [hemail]
    rw [hbe, hse] at hmiss
    unfold email_score
    rw [if_pos hmiss]
  · intro hmiss
    rw [hbc, hcb, hcs] at hmiss
    rw [hcity]
    exact (city_score_missing_cases _ _ _).1 hmiss
  · intro hmiss
    rw [hbc, hcb, hcs] at hmiss
    rw [hcity]
    exact (city_score_missing_cases _ _ _).2.1 hmiss
  · intro hmiss
    rw [hbc, hcb, hcs] at hmiss
    rw [hcity]
    exact (city_score_missing_cases _ _ _).2.2 hmiss
  · intro hmiss
    rw [hbs, hsb, hss] at hmiss
    rw [hstate]
    exact (state_score_missing_cases _ _ _).1 hmiss
  · intro hmiss
    rw [hbs, hsb, hss] at hmiss
    rw [hstate]
    exact (state_score_missing_cases _ _ _).2.1 hmiss
  · intro p1 p2 hp
    unfold phone_score
    rw [if_pos hp]
  · intro z z1 z2 hz
    unfold zip_score
    rw [if_pos hz]

/-- Witness for C7 (amended): on a concrete surviving pair with empty
source-side city and state, the city score is the contradicting +1, and a
phone with no digits scores 0. -/
theorem claim_missing_values_scoring_witness :
    ((compute_matches .v1 3 [pairC7]).headD default).AddressCityScore = 1 ∧
    phone_score "" "3035551212" = 0 :=
  ⟨(claim_missing_values_scoring .v1 3 [pairC7]
      ((compute_matches .v1 3 [pairC7]).headD default) (by decide)).2.2.1 (by decide),
   (claim_missing_values_scoring .v1 3 [pairC7]
      ((compute_matches .v1 3 [pairC7]).headD default) (by decide)).2.2.2.2.2.2.1
     "" "3035551212" (Or.inl (by decide))⟩

/-- C1: every result emitted by the (spec-modelled) full pipeline variant
has `total_score` equal to the sum of its seven terms — name distance, the
email, phone, zip, city and state scores, and the multi-signal bonus — and
the bonus is −1 exactly when at least three corroborating signals among
{distance ≤ 1, email<0, phone<0, zip<0, city<0, state<0} hold, else 0. -/
theorem claim_total_score_seven_terms (R : RatioFns) (nv : NormVersion)
    (maxDist : Nat) (pairs : List (SourceRecord × ReferenceRecord))
    (r : SpecFlagged) (hr : r ∈ compute_matches_spec R nv maxDist pairs) :
    r.total_score = (r.name_distance : Int) + r.email_score + r.phone_score
      + r.zip_score + r.city_score + r.state_score + r.multi_signal_bonus ∧
    r.multi_signal_bonus = (if 3 ≤ signal_count r.name_distance r.email_score
      r.phone_score r.zip_score r.city_score r.state_score then -1 else 0) := by
  obtain ⟨pr, hpr, hsome⟩ := compute_matches_spec_mem hr
  have h := score_pair_spec_eq hsome
  refine ⟨h.2.2.2.2.2.2.2.2.1, ?_⟩
  rw [h.2.2.2.2.2.2.2.1]
  rfl

/-- Witness for C1 on a concrete strongly-corroborated pair (all six signals
hold, so the bonus fires). -/
theorem claim_total_score_seven_terms_witness :
    (((compute_matches_spec sampleRatios .v1 3 [samplePairSpec]).headD
        default).total_score
      = (((compute_matches_spec sampleRatios .v1 3 [samplePairSpec]).headD
          default).name_distance : Int)
        + ((compute_matches_spec sampleRatios .v1 3 [samplePairSpec]).headD
            default).email_score
        + ((compute_matches_spec sampleRatios .v1 3 [samplePairSpec]).headD
            default).phone_score
        + ((compute_matches_spec sampleRatios .v1 3 [samplePairSpec]).headD
            default).zip_score
        + ((compute_matches_spec sampleRatios .v1 3 [samplePairSpec]).headD
            default).city_score
        + ((compute_matches_spec sampleRatios .v1 3 [samplePairSpec]).headD
            default).state_score
        + ((compute_matches_spec sampleRatios .v1 3 [samplePairSpec]).headD
            default).multi_signal_bonus) ∧
    ((compute_matches_spec sampleRatios .v1 3 [samplePairSpec]).headD
        default).multi_signal_bonus = -1 := by
  refine ⟨(claim_total_score_seven_terms sampleRatios .v1 3 [samplePairSpec]
    ((compute_matches_spec sampleRatios .v1 3 [samplePairSpec]).headD default)
    (by decide)).1, ?_⟩
  decide

/-- C5: every emitted result of the (spec-modelled) full pipeline variant
carries the confidence band determined by its total score — HIGH when
`total ≤ 0`, MEDIUM when `0 < total ≤ 2`, LOW otherwise — with the exact
boundary values 0 → HIGH, 1 → MEDIUM, 3 → LOW. -/
theorem claim_confidence_band (R : RatioFns) (nv : NormVersion) (maxDist : Nat)
    (pairs : List (SourceRecord × ReferenceRecord)) (r : SpecFlagged)
    (hr : r ∈ compute_matches_spec R nv maxDist pairs) :
    r.confidence_band = (if r.total_score ≤ 0 then ConfidenceBand.HIGH
      else if r.total_score ≤ 2 then ConfidenceBand.MEDIUM
      else ConfidenceBand.LOW) ∧
    confidence_band 0 = ConfidenceBand.HIGH ∧
    confidence_band 1 = ConfidenceBand.MEDIUM ∧
    confidence_band 3 = ConfidenceBand.LOW := by
  obtain ⟨pr, hpr, hsome⟩ := compute_matches_spec_mem hr
  have h := score_pair_spec_eq hsome
  refine ⟨?_, by decide, by decide, by decide⟩
  rw [h.2.2.2.2.2.2.2.2.2]
  rfl

/-- Witness for C5: the concrete strongly-corroborated pair lands in the
HIGH band. -/
theorem claim_confidence_band_witness :
    ((compute_matches_spec sampleRatios .v1 3 [samplePairSpec]).headD
        default).confidence_band
      = (if ((compute_matches_spec sampleRatios .v1 3 [samplePairSpec]).headD
            default).total_score ≤ 0 then ConfidenceBand.HIGH
        else if ((compute_matches_spec sampleRatios .v1 3 [samplePairSpec]).headD
            default).total_score ≤ 2 then ConfidenceBand.MEDIUM
        else ConfidenceBand.LOW) ∧
    ((compute_matches_spec sampleRatios .v1 3 [samplePairSpec]).headD
        default).confidence_band = ConfidenceBand.HIGH :=
  ⟨(claim_confidence_band sampleRatios .v1 3 [samplePairSpec]
      ((compute_matches_spec sampleRatios .v1 3 [samplePairSpec]).headD default)
      (by decide)).1,
   by decide⟩

/-- C2: for names whose normalized forms both have length ≥ 4, the
(spec-modelled) fused name distance is the minimum of the unit-cost edit
distance `lev` of the normalized names and the pseudo-distance obtained by
mapping the maximum of the four fuzzy ratios through the bands ≥95→0,
≥90→1, ≥85→2, ≥80→3, else `max_dist` (the band map is `fuzzy_score_to_dist`,
embedded from `src/matcher.py`). -/
theorem claim_fused_name_distance (R : RatioFns) (nv : NormVersion)
    (maxDist : Nat) (aRaw bRaw : String)
    (ha : 4 ≤ (normalize nv aRaw.toList).length)
    (hb : 4 ≤ (normalize nv bRaw.toList).length) :
    name_dist_spec R nv maxDist aRaw bRaw =
      min (lev (normalize nv aRaw.toList) (normalize nv bRaw.toList))
        (fuzzy_score_to_dist
          (max (R.wratio (normalize nv aRaw.toList) (normalize nv bRaw.toList))
            (max (R.setRatio (normalize nv aRaw.toList) (normalize nv bRaw.toList))
              (max (R.sortRatio (normalize nv aRaw.toList) (normalize nv bRaw.toList))
                (R.partRatio (normalize nv aRaw.toList) (normalize nv bRaw.toList)))))
          maxDist) ∧
    (∀ s : Nat, fuzzy_score_to_dist s maxDist =
      if 95 ≤ s then 0 else if 90 ≤ s then 1 else if 85 ≤ s then 2
      else if 80 ≤ s then 3 else maxDist) := by
  constructor
  · unfold name_dist_spec
    have h4 : 4 ≤ min (normalize nv aRaw.toList).length
        (normalize nv bRaw.toList).length := le_min ha hb
    have hmin : ¬min (normalize nv aRaw.toList).length
        (normalize nv bRaw.toList).length = 0 := by omega
    have hmin4 : ¬min (normalize nv aRaw.toList).length
        (normalize nv bRaw.toList).length < 4 := by omega
    rw [if_neg hmin, if_neg hmin4, compute_distance_eq_lev]
    have hane : ¬(normalize nv aRaw.toList = [] ∨ normalize nv bRaw.toList = []) := by
      rintro (h | h)
      · rw [h] at ha
        simp at ha
      · rw [h] at hb
        simp at hb
    unfold fuzzy_similarity_score
    rw [if_neg hane]
  · intro s
    rfl

/-- Witness for C2 on concrete names and constant ratio functions. -/
theorem claim_fused_name_distance_witness :
    name_dist_spec sampleRatios .v1 3 "abcd" "abcf" =
      min (lev (normalize .v1 "abcd".toList) (normalize .v1 "abcf".toList))
        (fuzzy_score_to_dist
          (max (sampleRatios.wratio (normalize .v1 "abcd".toList)
              (normalize .v1 "abcf".toList))
            (max (sampleRatios.setRatio (normalize .v1 "abcd".toList)
                (normalize .v1 "abcf".toList))
              (max (sampleRatios.sortRatio (normalize .v1 "abcd".toList)
                  (normalize .v1 "abcf".toList))
                (sampleRatios.partRatio (normalize .v1 "abcd".toList)
                  (normalize .v1 "abcf".toList))))) 3) :=
  (claim_fused_name_distance sampleRatios .v1 3 "abcd" "abcf"
    (by decide) (by decide)).1

end Enrichment
